import Mathlib

/-!
Verification development for the `lang.py` versioned concept-graph backend
(src/backend/lang.py).  The SQLite-backed state is shallowly embedded as a
`Store` of row lists; every modelled operation mirrors one Python
function/endpoint of the source, statement by statement.

Modelling conventions:
  * SQLite `AUTOINCREMENT` ids are modelled by per-table counters carried in
    the store; rows are appended in insertion order.
  * `created_at` columns are modelled by the (monotone) row id: rows are
    inserted in id order, so `ORDER BY created_at` agrees with `ORDER BY id`
    up to SQL's arbitrary tie-breaking on equal timestamps.
  * JSON text columns are modelled by an inductive `Json` value together
    with a marker for text that does not parse (`TWText.invalid`); Python's
    `json.loads` of a dict never yields duplicate keys, so object lookup is
    plain association-list lookup.
  * A Flask `abort` or an uncaught Python exception ends the request before
    `db.commit()`; the request-scoped connection is then closed by the
    `teardown_appcontext` handler without committing, and SQLite rolls the
    open transaction back.  Operations therefore return the unchanged store
    (paired with an error response) on every abort path.
-/

/-- A parsed JSON value (the result of a successful `json.loads`).  Objects
coming from Python dicts have pairwise-distinct keys. -/
inductive Json where
  | null : Json
  | bool (b : Bool) : Json
  | num (n : Int) : Json
  | str (s : String) : Json
  | arr (xs : List Json) : Json
  | obj (kvs : List (String × Json)) : Json

/-- Python `repr` of a JSON value, approximated: string escaping inside the
quotes is elided.  No modelled behaviour depends on the exact rendering of
non-string values, only on its non-emptiness. -/
def Json.pyRepr : Json → String
  | .null => "None"
  | .bool true => "True"
  | .bool false => "False"
  | .num n => toString n
  | .str s => "'" ++ s ++ "'"
  | .arr xs => "[" ++ String.intercalate ", " (xs.attach.map (fun x => Json.pyRepr x.1)) ++ "]"
  | .obj kvs => "\x7b" ++ String.intercalate ", " (kvs.attach.map (fun kv => "'" ++ kv.1.1 ++ "': " ++ Json.pyRepr kv.1.2)) ++ "\x7d"
decreasing_by
  all_goals simp_wf
  · have := List.sizeOf_lt_of_mem x.2
    omega
  · have h1 := List.sizeOf_lt_of_mem kv.2
    have h2 : sizeOf kv.1.2 < sizeOf kv.1 := by
      obtain ⟨a, b⟩ := kv.1
      simp
    omega

/-- Python `str(x)` of a JSON value: identity on strings, `repr`-style
rendering otherwise (as in the phrase-insertion loop `str(phrase)`). -/
def Json.pyStr : Json → String
  | .str s => s
  | j => j.pyRepr

/-- `d.get(k)` on a parsed JSON dict: association-list lookup. -/
def Json.lookup (k : String) : Json → Option Json
  | .obj kvs => (kvs.find? (fun kv => kv.1 = k)).map (·.2)
  | _ => none

/-- Whether a JSON value is a Python dict. -/
def Json.isObj : Json → Bool
  | .obj _ => true
  | _ => false

/-- `x.get(k)` where `x` may not be a dict: Python raises `AttributeError`
on non-dict values (e.g. `payload.get("themes", [])` when the staged text
parsed to a list). -/
def Json.getAttrE (j : Json) (k : String) : Except String (Option Json) :=
  match j with
  | .obj kvs => .ok ((kvs.find? (fun kv => kv.1 = k)).map (·.2))
  | _ => .error "AttributeError: get"

/-- Python truthiness of a JSON value. -/
def Json.truthy : Json → Bool
  | .null => false
  | .bool b => b
  | .num n => n != 0
  | .str s => s ≠ ""
  | .arr xs => !xs.isEmpty
  | .obj kvs => !kvs.isEmpty

/-- Python `str.strip()`: drop leading and trailing whitespace (modelled
over the character list so it computes by kernel reduction; Lean's
`Char.isWhitespace` covers the ASCII whitespace Python strips). -/
def pyStrip (s : String) : String :=
  ⟨((s.data.dropWhile Char.isWhitespace).reverse.dropWhile Char.isWhitespace).reverse⟩

/-- `(v or "").strip()` applied to an optional JSON value `v` (as in
`(t.get("theme") or "").strip()`): missing/falsy values give `""`, strings
are stripped, and a truthy non-string raises `AttributeError` because it has
no `.strip`. -/
def pyStrOrEmptyStrip : Option Json → Except String String
  | none => .ok ""
  | some j =>
    if j.truthy then
      match j with
      | .str s => .ok (pyStrip s)
      | _ => .error "AttributeError: strip"
    else .ok ""

/-- `int(v or 0)` applied to an optional JSON value (as in
`int(ident.get("child_word_id") or 0)`): missing/falsy gives `0`, ints pass
through, `True` gives 1, digit strings parse, anything else raises. -/
def pyIntOr0 : Option Json → Except String Int
  | none => .ok 0
  | some j =>
    if j.truthy then
      match j with
      | .num n => .ok n
      | .bool _ => .ok 1
      | .str s =>
        if s ≠ "" ∧ s.all Char.isDigit then .ok (s.toNat!) else .error "ValueError: int"
      | _ => .error "TypeError: int"
    else .ok 0

/-- The stored text of a JSON text column: either text that `json.loads`
rejects, the empty string, or text that parses to a `Json` value. -/
inductive TWText where
  | invalid : TWText
  | empty : TWText
  | parsed (j : Json) : TWText

/-- `json.loads(text or "{}")` as used by `apply_create_lang_words`:
empty text falls back to `"{}"`, unparseable text is `none` (the
`except` branch aborts with 400). -/
def TWText.loadsOrEmptyObj : TWText → Option Json
  | .invalid => none
  | .empty => some (.obj [])
  | .parsed j => some j

-- ---------------------------------------------------------------------
-- Rows and store (mirroring `ensure_schema`)
-- ---------------------------------------------------------------------

/-- A row of `lang_words` (a Concept): `word` is `NOT NULL UNIQUE`. -/
structure LangWordRow where
  id : Nat
  word : String
deriving DecidableEq, Repr

/-- A row of `lang_word_versions` (a ConceptVersion):
`UNIQUE(lang_word_id, version)`, FK to `lang_words` with cascade. -/
structure VersionRow where
  id : Nat
  lang_word_id : Nat
  version : Nat
deriving DecidableEq, Repr

/-- A row of `child_words` (an orbiting phrase), FK to its version with
cascade. -/
structure ChildWordRow where
  id : Nat
  lang_word_version_id : Nat
  word : String
  link : Option String
deriving DecidableEq, Repr

/-- A row of `lang_word_children` (an edge from a parent version to a child
concept): `UNIQUE(parent_lang_word_version_id, child_lang_word_id)`. -/
structure EdgeRow where
  parent_lang_word_version_id : Nat
  child_lang_word_id : Nat
deriving DecidableEq, Repr

/-- The `status` column of `llm_tasks`: `queued|running|done|error`. -/
inductive TaskStatus where
  | queued | running | done | error
deriving DecidableEq, Repr

/-- A row of `llm_tasks`.  `identifier` and `payload` are stored as JSON
text; they are modelled by their parsed values (`_json_loads_safe` with
default `{}` means unparseable text behaves as the empty object). -/
structure TaskRow where
  id : Nat
  parent_lang_word_id : Nat
  task_type : String
  identifier : Json
  payload : Json
  status : TaskStatus
  error : Option String
  result_writing_id : Option Nat

/-- A row of `temporary_writings` (a staged artifact). -/
structure WritingRow where
  id : Nat
  parent_lang_word_id : Nat
  prompt_type : String
  text : TWText
  task_id : Option Nat

/-- A row of `star_stuff`. -/
structure StarRow where
  id : Nat
  child_word_id : Nat
  prompt_type : String
  text : String
  task_id : Option Nat

/-- A row of `lang_sentences`; `lang_word_ids` is a JSON text column. -/
structure SentenceRow where
  id : Nat
  lang_word_ids : TWText
  sentence : String

/-- A row of `child_sentences`. -/
structure ChildSentenceRow where
  id : Nat
  lang_sentence_id : Nat
  child_word_ids : List Int
  lang_word_ids : List Int
  sentence : String

/-- The whole SQLite database `lang.db`: one list per table plus the
`AUTOINCREMENT` counter of each table. -/
structure Store where
  words : List LangWordRow
  versions : List VersionRow
  childWords : List ChildWordRow
  edges : List EdgeRow
  tasks : List TaskRow
  writings : List WritingRow
  stars : List StarRow
  sentences : List SentenceRow
  childSentences : List ChildSentenceRow
  nextWordId : Nat
  nextVersionId : Nat
  nextChildWordId : Nat
  nextTaskId : Nat
  nextWritingId : Nat
  nextStarId : Nat
  nextChildSentenceId : Nat

-- ---------------------------------------------------------------------
-- Generic SQL helpers
-- ---------------------------------------------------------------------

/-- `ORDER BY f(x) DESC LIMIT 1`: the element with maximal key (unique in
every use site thanks to a UNIQUE constraint; on ties the earliest row is
kept, matching SQL's freedom to return any of them). -/
def pickMaxBy {α : Type} (f : α → Nat) : List α → Option α
  | [] => none
  | x :: xs =>
    match pickMaxBy f xs with
    | none => some x
    | some y => if f y ≤ f x then some x else some y

/-- `ORDER BY f(x) ASC LIMIT 1`: the element with minimal key. -/
def pickMinBy {α : Type} (f : α → Nat) : List α → Option α
  | [] => none
  | x :: xs =>
    match pickMinBy f xs with
    | none => some x
    | some y => if f x ≤ f y then some x else some y

/-- `_parse_int_list_json`: parse a JSON text column into a list of ints,
keeping ints (Python `bool` is an `int`: `True` counts as 1, `False` as 0)
and digit-only strings, dropping everything else; non-lists give `[]`. -/
def parse_int_list_json (t : TWText) : List Int :=
  match t with
  | .parsed (.arr xs) =>
    xs.foldr (fun x out =>
      match x with
      | .num n => n :: out
      | .bool b => (if b then (1 : Int) else 0) :: out
      | .str s => if s ≠ "" ∧ s.all Char.isDigit then (s.toNat! : Int) :: out else out
      | _ => out) []
  | _ => []

-- ---------------------------------------------------------------------
-- ConceptStore primitives (versions, phrases, edges)
-- ---------------------------------------------------------------------

/-- The rows of `lang_word_versions` belonging to one concept. -/
def Store.versionsOf (s : Store) (wid : Nat) : List VersionRow :=
  s.versions.filter (fun v => v.lang_word_id = wid)

/-- The `version` numbers recorded for one concept. -/
def Store.versionNumsOf (s : Store) (wid : Nat) : List Nat :=
  (s.versionsOf wid).map (·.version)

/-- `SELECT ... ORDER BY version DESC LIMIT 1` for a concept: its row of
maximal `version` (unique by `UNIQUE(lang_word_id, version)`). -/
def Store.latestVersionRow (s : Store) (wid : Nat) : Option VersionRow :=
  pickMaxBy (·.version) (s.versionsOf wid)

/-- The maximal `version` number of a concept, if any version exists. -/
def Store.maxVersionOf (s : Store) (wid : Nat) : Option Nat :=
  (s.latestVersionRow wid).map (·.version)

/-- The phrases (`child_words` rows) owned by one version, in insertion
order (`ORDER BY created_at ASC, id ASC` equals insertion order because both
columns are monotone in it). -/
def Store.phrasesOf (s : Store) (vid : Nat) : List ChildWordRow :=
  s.childWords.filter (fun c => c.lang_word_version_id = vid)

/-- `ensure_word_has_v1`: return the newest version id for the word, or
insert version 1 and return its id. -/
def ensure_word_has_v1 (s : Store) (wid : Nat) : Store × Nat :=
  match s.latestVersionRow wid with
  | some v => (s, v.id)
  | none =>
    let row : VersionRow := ⟨s.nextVersionId, wid, 1⟩
    ({ s with versions := s.versions ++ [row], nextVersionId := s.nextVersionId + 1 }, row.id)

/-- `create_next_version`: insert a new version row with number
`max(existing) + 1` (or 1 if none exist) and return its id. -/
def create_next_version (s : Store) (wid : Nat) : Store × Nat :=
  let next_version := match s.latestVersionRow wid with
    | some last => last.version + 1
    | none => 1
  let row : VersionRow := ⟨s.nextVersionId, wid, next_version⟩
  ({ s with versions := s.versions ++ [row], nextVersionId := s.nextVersionId + 1 }, row.id)

/-- `INSERT INTO lang_words (word) VALUES (?)` (no uniqueness check here;
callers either check first or hit the UNIQUE constraint). -/
def insert_lang_word (s : Store) (w : String) : Store × Nat :=
  let row : LangWordRow := ⟨s.nextWordId, w⟩
  ({ s with words := s.words ++ [row], nextWordId := s.nextWordId + 1 }, row.id)

/-- `INSERT INTO child_words (lang_word_version_id, word, link)`. -/
def insert_child_word (s : Store) (vid : Nat) (w : String) (link : Option String) : Store × Nat :=
  let row : ChildWordRow := ⟨s.nextChildWordId, vid, w, link⟩
  ({ s with childWords := s.childWords ++ [row], nextChildWordId := s.nextChildWordId + 1 }, row.id)

/-- `INSERT OR IGNORE INTO lang_word_children`: append the edge unless the
`(parent_version, child)` pair is already present. -/
def insert_edge_or_ignore (s : Store) (pvid cid : Nat) : Store :=
  if s.edges.any (fun e => e.parent_lang_word_version_id = pvid ∧ e.child_lang_word_id = cid) then s
  else { s with edges := s.edges ++ [⟨pvid, cid⟩] }

/-- Response of `create_lang_word_generic` (`POST /api/lang_words`). -/
inductive CreateWordResp where
  | badRequest (msg : String)
  | integrityError
  | created (lang_word_id version_id : Nat) (word : String)
deriving DecidableEq, Repr

/-- `create_lang_word_generic`: strip the word, reject empty, insert the
concept and its version 1.  A duplicate `word` violates
`lang_words.word UNIQUE`; `sqlite3.IntegrityError` is not caught, so the
request dies before `db.commit()` and the transaction rolls back (store
unchanged). -/
def create_lang_word_generic (s : Store) (word_raw : String) : Store × CreateWordResp :=
  let word := pyStrip word_raw
  if word = "" then (s, .badRequest "Missing 'word'.")
  else if s.words.any (fun w => w.word = word) then (s, .integrityError)
  else
    let (s1, lang_word_id) := insert_lang_word s word
    let (s2, version_id) := ensure_word_has_v1 s1 lang_word_id
    (s2, .created lang_word_id version_id word)

/-- `delete_lang_word_version` (`DELETE /api/lang_word_versions/<id>`):
delete the version row unconditionally; `ON DELETE CASCADE` removes its
phrases and its outgoing edges.  There is no guard for the concept's last
remaining version. -/
def delete_lang_word_version (s : Store) (vid : Nat) : Store :=
  if s.versions.any (fun v => v.id = vid) then
    { s with
      versions := s.versions.filter (fun v => ¬ v.id = vid),
      childWords := s.childWords.filter (fun c => ¬ c.lang_word_version_id = vid),
      edges := s.edges.filter (fun e => ¬ e.parent_lang_word_version_id = vid) }
  else s

/-- Response of the edge endpoints. -/
inductive EdgeResp where
  | notFound (msg : String)
  | ok
deriving DecidableEq, Repr

/-- `add_child_lang_word` (`POST .../child_lang_words`): 404 unless both the
parent version and the child word exist, then `INSERT OR IGNORE` the edge. -/
def add_child_lang_word (s : Store) (version_id child_lang_word_id : Nat) : Store × EdgeResp :=
  if ¬ s.versions.any (fun v => v.id = version_id) then (s, .notFound "Version not found.")
  else if ¬ s.words.any (fun w => w.id = child_lang_word_id) then (s, .notFound "Child lang word not found.")
  else (insert_edge_or_ignore s version_id child_lang_word_id, .ok)

/-- `delete_child_lang_word` (`DELETE .../child_lang_words/<id>`): 404
unless the parent version exists, then delete the matching edge. -/
def delete_child_lang_word (s : Store) (version_id child_lang_word_id : Nat) : Store × EdgeResp :=
  if ¬ s.versions.any (fun v => v.id = version_id) then (s, .notFound "Version not found.")
  else
    ({ s with edges := s.edges.filter (fun e =>
        ¬ (e.parent_lang_word_version_id = version_id ∧ e.child_lang_word_id = child_lang_word_id)) }, .ok)

-- ---------------------------------------------------------------------
-- `write_tree` (`GET /api/write`): derived root listing
-- ---------------------------------------------------------------------

/-- One version entry of the `write_tree` response. -/
structure WriteTreeVersion where
  version_id : Nat
  version : Nat
  child_words : List ChildWordRow
  child_lang_words : List LangWordRow
deriving DecidableEq, Repr

/-- One root entry of the `write_tree` response. -/
structure WriteTreeRoot where
  lang_word_id : Nat
  word : String
  versions : List WriteTreeVersion
  current_child_lang_words : List LangWordRow
deriving DecidableEq, Repr

/-- The child concepts linked from a version
(`ORDER BY w.word ASC, w.id ASC`). -/
def Store.childLangWordsOf (s : Store) (vid : Nat) : List LangWordRow :=
  List.insertionSort (fun a b => a.word < b.word ∨ (a.word = b.word ∧ a.id ≤ b.id))
    ((s.edges.filter (fun e => e.parent_lang_word_version_id = vid)).filterMap
      (fun e => s.words.find? (fun w => w.id = e.child_lang_word_id)))

/-- `load_versions` inside `write_tree`: all versions of a word,
`ORDER BY version DESC`, each with its phrases and child concepts. -/
def load_versions (s : Store) (wid : Nat) : List WriteTreeVersion :=
  (List.insertionSort (fun a b => b.version ≤ a.version) (s.versionsOf wid)).map
    (fun v => ⟨v.id, v.version, s.phrasesOf v.id, s.childLangWordsOf v.id⟩)

/-- `write_tree`: the concepts that no edge anywhere names as a child
(`WHERE NOT EXISTS (SELECT 1 FROM lang_word_children lwc WHERE
lwc.child_lang_word_id = w.id)`, `ORDER BY word ASC, id ASC`), each with its
version history; `current_child_lang_words` are the children of the row
with the highest version (the head of the DESC-sorted list). -/
def write_tree (s : Store) : List WriteTreeRoot :=
  (List.insertionSort (fun a b => a.word < b.word ∨ (a.word = b.word ∧ a.id ≤ b.id))
    (s.words.filter (fun w => ¬ s.edges.any (fun e => e.child_lang_word_id = w.id)))).map
    (fun w =>
      let versions := load_versions s w.id
      let current := match versions with
        | [] => []
        | latest :: _ => latest.child_lang_words
      ⟨w.id, w.word, versions, current⟩)

-- ---------------------------------------------------------------------
-- ApplyEngine: `apply_create_lang_words`
-- ---------------------------------------------------------------------

/-- One element of the `created` list returned by the apply endpoint. -/
structure CreatedEntry where
  child_lang_word_id : Nat
  word : String
  child_version_id : Nat
deriving DecidableEq, Repr

/-- `t.get("orbiting_phrases", [])` followed by the `isinstance(orbit, list)`
guard: the phrase values to iterate over (a missing key defaults to the
empty list, a non-list is skipped entirely). -/
def theme_orbit (t : Json) : List Json :=
  match t.lookup "orbiting_phrases" with
  | some (.arr xs) => xs
  | _ => []

/-- The inner phrase loop: for each value, `(str(phrase) or "").strip()`,
skip empties, insert a `child_words` row (`link = NULL`) under the theme's
version. -/
def insert_orbit (s : Store) (vid : Nat) : List Json → Store
  | [] => s
  | p :: rest =>
    let phrase := pyStrip (Json.pyStr p)
    if phrase = "" then insert_orbit s vid rest
    else insert_orbit (insert_child_word s vid phrase none).1 vid rest

/-- The `for t in themes:` loop of `apply_create_lang_words`.  Each dict
entry with a usable (non-empty, stripped) `theme` string reuses or creates
the child concept, mints a version for it (a new version when it already
existed, version 1 via `ensure_word_has_v1` when it was just created),
links the parent version to it, and inserts its orbiting phrases; non-dict
entries and unusable names are skipped; a truthy non-string `theme` raises
(`.strip()` on a non-string), aborting the request. -/
def apply_themes_loop (pvid : Nat) (s : Store) (themes : List Json)
    (acc : List CreatedEntry) : Except String (Store × List CreatedEntry) :=
  match themes with
  | [] => .ok (s, acc)
  | t :: rest =>
    if t.isObj then
      match pyStrOrEmptyStrip (t.lookup "theme") with
      | .error m => .error m
      | .ok theme_word =>
        if theme_word = "" then apply_themes_loop pvid s rest acc
        else
          let existing := s.words.find? (fun w => w.word = theme_word)
          let (s1, child_lang_word_id) :=
            match existing with
            | some w => (s, w.id)
            | none => insert_lang_word s theme_word
          let (s2, child_version_id) :=
            match existing with
            | some _ => create_next_version s1 child_lang_word_id
            | none => ensure_word_has_v1 s1 child_lang_word_id
          let s3 := insert_edge_or_ignore s2 pvid child_lang_word_id
          let s4 := insert_orbit s3 child_version_id (theme_orbit t)
          apply_themes_loop pvid s4 rest
            (acc ++ [⟨child_lang_word_id, theme_word, child_version_id⟩])
    else apply_themes_loop pvid s rest acc

/-- Response of the apply endpoint.  `aborted` covers Flask `abort` and any
uncaught exception: the request dies before `db.commit()`, so the paired
store is always the unchanged input store (SQLite rollback). -/
inductive ApplyResp where
  | aborted (httpCode : Nat) (msg : String)
  | applied (created : List CreatedEntry)
deriving Repr

/-- `apply_create_lang_words` (`POST /api/temporary_writings/<id>/apply_create_lang_words`).

Mirrors the source order: load the writing (404), check `prompt_type`
(400), mint the parent's next version, parse the stored JSON (400 on parse
failure — the already-executed version insert is rolled back because the
single `db.commit()` at the end is never reached), default `themes` to a
list, run the theme loop, delete the writing, and only then commit
everything at once. -/
def apply_create_lang_words (s : Store) (writing_id : Nat) : Store × ApplyResp :=
  match s.writings.find? (fun w => w.id = writing_id) with
  | none => (s, .aborted 404 "Temporary writing not found.")
  | some wr =>
    if wr.prompt_type ≠ "create_lang_words" then
      (s, .aborted 400 "Wrong prompt_type for this apply endpoint.")
    else
      let parent_lang_word_id := wr.parent_lang_word_id
      let (s1, parent_version_id) := create_next_version s parent_lang_word_id
      match wr.text.loadsOrEmptyObj with
      | none => (s, .aborted 400 "Temporary writing JSON is invalid.")
      | some payload =>
        match payload.getAttrE "themes" with
        | .error m => (s, .aborted 500 m)
        | .ok themesOpt =>
          let themes := match themesOpt with
            | some (.arr xs) => xs
            | _ => []
          match apply_themes_loop parent_version_id s1 themes [] with
          | .error m => (s, .aborted 500 m)
          | .ok (s2, created) =>
            ({ s2 with writings := s2.writings.filter (fun w => ¬ w.id = writing_id) },
             .applied created)

/-- The name/phrase plan the theme loop extracts from a parsed payload, used
to state what a successful apply inserted: one `(theme, phrases)` pair per
usable entry, in order. -/
def extract_themes : List Json → Except String (List (String × List String))
  | [] => .ok []
  | t :: rest =>
    if t.isObj then
      match pyStrOrEmptyStrip (t.lookup "theme") with
      | .error m => .error m
      | .ok theme_word =>
        if theme_word = "" then extract_themes rest
        else
          match extract_themes rest with
          | .error m => .error m
          | .ok tl =>
            .ok ((theme_word,
              ((theme_orbit t).map (fun p => pyStrip (Json.pyStr p))).filter (fun ph => ¬ ph = "")) :: tl)
    else extract_themes rest

-- ---------------------------------------------------------------------
-- TaskQueue: enqueue endpoints
-- ---------------------------------------------------------------------

/-- Response of `enqueue_create_lang_words` / `enqueue_create_child_words`. -/
inductive EnqueueResp where
  | notFound (msg : String)
  | dedup (task_id : Nat) (status : TaskStatus)
  | enqueued (task_id : Nat)
deriving DecidableEq, Repr

/-- The in-flight tasks of a given `(parent, task_type)`:
`WHERE parent_lang_word_id=? AND task_type=? AND status IN
('queued','running')`. -/
def Store.inflight (s : Store) (pid : Nat) (kind : String) : List TaskRow :=
  s.tasks.filter (fun t =>
    t.parent_lang_word_id = pid ∧ t.task_type = kind ∧
      (t.status = .queued ∨ t.status = .running))

/-- `enqueue_create_lang_words` (`POST /api/write/create_lang_words`), with
the request body already decoded to a valid parent id and modifier string
(the missing/invalid-int 400 paths carry no state and are elided).  If an
in-flight task with the same `(parent, 'create_lang_words')` exists, return
the one with the highest id (`ORDER BY id DESC LIMIT 1`) as `deduped`
without inserting; otherwise insert a fresh `queued` task. -/
def enqueue_create_lang_words (s : Store) (parent_lang_word_id : Nat)
    (modifier : String) : Store × EnqueueResp :=
  if ¬ s.words.any (fun w => w.id = parent_lang_word_id) then
    (s, .notFound "Parent lang word not found.")
  else
    match pickMaxBy (·.id) (s.inflight parent_lang_word_id "create_lang_words") with
    | some existing => (s, .dedup existing.id existing.status)
    | none =>
      let row : TaskRow :=
        ⟨s.nextTaskId, parent_lang_word_id, "create_lang_words",
          .obj [("parent_lang_word_id", .num parent_lang_word_id)],
          .obj [("modifier", .str (pyStrip modifier))], .queued, none, none⟩
      ({ s with tasks := s.tasks ++ [row], nextTaskId := s.nextTaskId + 1 },
       .enqueued row.id)

/-- The keys of `STAR_STUFF_PROMPTS`. -/
def STAR_KEYS : List String :=
  ["create_star_stuff_words", "create_star_stuff_images", "create_star_stuff_data",
   "create_star_stuff_synthetic_data", "create_star_stuff_code"]

/-- The context record built by `_resolve_star_context`: the child word, its
owning version and concept (via the JOINs), and the concept's most recent
parent concept (`ORDER BY pv.created_at DESC LIMIT 1` over inbound edges),
if any. -/
structure StarCtx where
  child_word : ChildWordRow
  version : VersionRow
  lang_word : LangWordRow
  lang_name : Option LangWordRow

/-- `_resolve_star_context`: raises `NotFound` when the JOINed child
word/version/concept row is absent. -/
def resolve_star_context (s : Store) (cwid : Int) : Except String StarCtx :=
  match s.childWords.find? (fun c => (c.id : Int) = cwid) with
  | none => .error ("child_word_id " ++ toString cwid ++ " not found")
  | some cw =>
    match s.versions.find? (fun v => v.id = cw.lang_word_version_id) with
    | none => .error ("child_word_id " ++ toString cwid ++ " not found")
    | some v =>
      match s.words.find? (fun w => w.id = v.lang_word_id) with
      | none => .error ("child_word_id " ++ toString cwid ++ " not found")
      | some lw =>
        let cands := (s.edges.filter (fun e => e.child_lang_word_id = lw.id)).filterMap
          (fun e => (s.versions.find? (fun pv => pv.id = e.parent_lang_word_version_id)).bind
            (fun pv => (s.words.find? (fun plw => plw.id = pv.lang_word_id)).map
              (fun plw => (pv, plw))))
        .ok ⟨cw, v, lw, (pickMaxBy (fun c => c.1.id) cands).map (·.2)⟩

/-- Response of `api_star_stuff_tasks`. -/
inductive StarTasksResp where
  | badRequest (msg : String)
  | notFound (msg : String)
  | taskIds (ids : List Nat)
deriving DecidableEq, Repr

/-- The insertion loop of `api_star_stuff_tasks`: one new `queued` row per
prompt, no dedup query of any kind. -/
def star_insert_tasks (s : Store) (parent_id : Nat) (ident payload : Json) :
    List String → Store × List Nat
  | [] => (s, [])
  | p :: rest =>
    let row : TaskRow := ⟨s.nextTaskId, parent_id, p, ident, payload, .queued, none, none⟩
    let s1 := { s with tasks := s.tasks ++ [row], nextTaskId := s.nextTaskId + 1 }
    let (s2, ids) := star_insert_tasks s1 parent_id ident payload rest
    (s2, row.id :: ids)

/-- `api_star_stuff_tasks` (`POST /api/star_stuff/tasks`): validate the
inputs, resolve the star context, and insert one `queued` task per prompt —
unconditionally (`parent_id = ctx["lang_name"]["id"] or
ctx["lang_word"]["id"]` falls back on a falsy parent id). -/
def api_star_stuff_tasks (s : Store) (child_word_id : Int) (prompts : List String)
    (modifier : String) : Store × StarTasksResp :=
  if child_word_id = 0 then (s, .badRequest "child_word_id is required")
  else if prompts.isEmpty then (s, .badRequest "prompts must be a non-empty list")
  else if ¬ prompts.all (fun p => STAR_KEYS.contains p) then
    (s, .badRequest "invalid prompt")
  else
    match resolve_star_context s child_word_id with
    | .error m => (s, .notFound m)
    | .ok ctx =>
      let parent_id : Nat := match ctx.lang_name with
        | some ln => if ln.id = 0 then ctx.lang_word.id else ln.id
        | none => ctx.lang_word.id
      let ident : Json := .obj
        [("child_word_id", .num child_word_id),
         ("lang_word_id", .num ctx.lang_word.id),
         ("lang_name_id", match ctx.lang_name with
           | some ln => .num ln.id
           | none => .null)]
      let payload : Json := .obj [("modifier", .str (pyStrip modifier))]
      let (s', ids) := star_insert_tasks s parent_id ident payload prompts
      (s', .taskIds ids)

-- ---------------------------------------------------------------------
-- Worker: claim + dispatch (`_process_one_task`)
-- ---------------------------------------------------------------------

/-- `UPDATE llm_tasks SET ... WHERE id=?` applied to one row. -/
def update_task (s : Store) (tid : Nat) (f : TaskRow → TaskRow) : Store :=
  { s with tasks := s.tasks.map (fun t => if t.id = tid then f t else t) }

/-- `UPDATE llm_tasks SET status='error', error=? WHERE id=?` (the `except`
handler; note: no guard on the row's current status). -/
def mark_task_error (s : Store) (tid : Nat) (msg : String) : Store :=
  update_task s tid (fun t => { t with status := .error, error := some msg })

/-- The claim step of `_process_one_task` (lines 2079–2095): `SELECT ...
WHERE status = 'queued' ORDER BY id ASC LIMIT 1`, then `UPDATE ... SET
status='running'` and commit; `none` when no queued task exists. -/
def claim_next (s : Store) : Option (Store × TaskRow) :=
  match pickMinBy (·.id) (s.tasks.filter (fun t => t.status = .queued)) with
  | none => none
  | some t => some (update_task s t.id (fun u => { u with status := .running }), t)

/-- One item produced by `_parse_child_sentence_output`. -/
structure CSItem where
  sentence : String
  lang_word_ids : List Int
  child_word_ids : List Int

/-- The external-collaborator boundary of one worker dispatch.  The
generative service call and the purely textual post-processing of its reply
are absorbed into oracle inputs; every modelled status/storage behaviour is
quantified over all oracle values, which covers every actual reply.
`log_err` models `log_llm_usage`: it writes to the separate
`llm_usage.db`, whose tables are never created by this repository, so the
call can raise (e.g. `OperationalError: no such table`) after the task's
`done` status has already been committed. -/
structure Oracle where
  text_reply : Except String String
  plan_reply : Except String Json
  phrases_reply : Except String Json
  parsed_items : List CSItem
  log_err : Option String

/-- The schema checks at the end of `_run_create_lang_words_llm`: the plan
must be a dict containing key `"themes"`, and `plan["themes"]` must be a
list. -/
def run_create_lang_words_llm (o : Oracle) : Except String Json :=
  match o.plan_reply with
  | .error m => .error m
  | .ok plan =>
    if plan.isObj ∧ (plan.lookup "themes").isSome then
      match plan.lookup "themes" with
      | some (.arr _) => .ok plan
      | _ => .error "LLM output 'themes' must be a list."
    else .error "LLM output did not match expected JSON schema."

/-- The schema checks at the end of `_run_create_child_words_llm`. -/
def run_create_child_words_llm (o : Oracle) : Except String (List Json) :=
  match o.phrases_reply with
  | .error m => .error m
  | .ok plan =>
    if plan.isObj ∧ (plan.lookup "orbiting_phrases").isSome then
      match plan.lookup "orbiting_phrases" with
      | some (.arr xs) => .ok xs
      | _ => .error "LLM output 'orbiting_phrases' must be a list."
    else .error "LLM output did not match expected JSON schema."

/-- `ident.get(k) or []` followed by `isinstance(..., list)` and per-element
`int(x)` under `try/except: pass`. -/
def pyIntListOf (v : Option Json) : List Int :=
  match v with
  | some (.arr xs) => xs.filterMap (fun x =>
      match x with
      | .num n => some n
      | .bool b => some (if b then 1 else 0)
      | .str s => if s ≠ "" ∧ s.all Char.isDigit then some (s.toNat! : Int) else none
      | _ => none)
  | _ => []

/-- `_build_child_sentence_ontology`: render each requested concept's latest
version with its child concepts and phrases; concepts that do not exist are
skipped, and the joined text is stripped (so it is empty iff nothing was
rendered). -/
def build_child_sentence_ontology (s : Store) (ids : List Int) : String :=
  let parts := ids.foldl (fun parts lang_word_id =>
    match s.words.find? (fun w => (w.id : Int) = lang_word_id) with
    | none => parts
    | some w =>
      let version_id := (s.latestVersionRow w.id).map (·.id)
      let head := "LANG WORD: " ++ w.word ++ " (id " ++ toString lang_word_id ++ ") v_id " ++
        (match version_id with | some v => toString v | none => "none")
      match version_id with
      | none => parts ++ [head, "CHILD LANG WORDS: none", "CHILD WORDS: none", ""]
      | some vid =>
        let cl := s.childLangWordsOf vid
        let clParts := if cl.isEmpty then ["CHILD LANG WORDS: none"]
          else "CHILD LANG WORDS:" :: cl.map (fun r => "- " ++ r.word ++ " (#" ++ toString r.id ++ ")")
        let cw := List.insertionSort (fun a b => a.word < b.word ∨ (a.word = b.word ∧ a.id ≤ b.id))
          (s.phrasesOf vid)
        let cwParts := if cw.isEmpty then ["CHILD WORDS: none"]
          else "CHILD WORDS:" :: cw.map (fun r => "- " ++ r.word ++ " (child_word_id " ++ toString r.id ++ ")")
        parts ++ [head] ++ clParts ++ cwParts ++ [""]) []
  pyStrip (String.intercalate "\n" parts)

/-- The child-sentence insertion loop of the `create_child_sentences`
branch. -/
def insert_child_sentences (sentence_id : Int) (fallback : List Int) (s : Store) :
    List CSItem → Store
  | [] => s
  | item :: rest =>
    let sent := pyStrip item.sentence
    if sent = "" then insert_child_sentences sentence_id fallback s rest
    else
      let lang_ids := if item.lang_word_ids.isEmpty ∧ item.child_word_ids.isEmpty
        then fallback else item.lang_word_ids
      let row : ChildSentenceRow :=
        ⟨s.nextChildSentenceId,
         (sentence_id.toNat), item.child_word_ids, lang_ids, sent⟩
      insert_child_sentences sentence_id fallback
        { s with childSentences := s.childSentences ++ [row],
                 nextChildSentenceId := s.nextChildSentenceId + 1 } rest

/-- The `seen`-deduplicated phrase insertion loop of the
`create_child_words` branch. -/
def insert_child_words_dedup (vid : Nat) (s : Store) :
    List Json → List String → Store
  | [], _ => s
  | p :: rest, seen =>
    let word := pyStrip (Json.pyStr p)
    if word = "" ∨ seen.contains word then insert_child_words_dedup vid s rest seen
    else insert_child_words_dedup vid (insert_child_word s vid word none).1 rest (word :: seen)

/-- The `try:` body of `_process_one_task` after the claim, up to and
including the branch's `status='done'` commit.  An `.error` is an exception
raised before any write of this body (all modelled raise sites precede the
branch's inserts), so the `except` handler then marks the claimed task
`error` on the post-claim state. -/
def dispatch_try (s : Store) (t : TaskRow) (o : Oracle) : Except String Store :=
  match t.payload.getAttrE "modifier" with
  | .error m => .error m
  | .ok mv =>
    match pyStrOrEmptyStrip mv with
    | .error m => .error m
    | .ok _mstr =>
      if STAR_KEYS.contains t.task_type then
        match t.identifier.getAttrE "child_word_id" with
        | .error m => .error m
        | .ok cwv =>
          match pyIntOr0 cwv with
          | .error m => .error m
          | .ok cwid =>
            if cwid = 0 then .error "child_word_id missing in identifier for star task"
            else
              match resolve_star_context s cwid with
              | .error m => .error m
              | .ok ctx =>
                match o.text_reply with
                | .error m => .error m
                | .ok result_text =>
                  let row : StarRow :=
                    ⟨s.nextStarId, ctx.child_word.id, t.task_type, result_text, some t.id⟩
                  let s1 := { s with stars := s.stars ++ [row],
                                     nextStarId := s.nextStarId + 1 }
                  .ok (update_task s1 t.id
                    (fun u => { u with status := .done, error := none }))
      else if t.task_type = "create_child_sentences" then
        match t.identifier.getAttrE "sentence_id" with
        | .error m => .error m
        | .ok sv =>
          match pyIntOr0 sv with
          | .error m => .error m
          | .ok sentence_id =>
            match t.identifier.getAttrE "lang_word_ids" with
            | .error m => .error m
            | .ok lv =>
              let ids0 := pyIntListOf lv
              if sentence_id = 0 then
                .error "sentence_id missing in identifier for child sentences task"
              else
                match s.sentences.find? (fun sr => (sr.id : Int) = sentence_id) with
                | none => .error "Sentence not found."
                | some sr =>
                  let ids := if ids0.isEmpty then parse_int_list_json sr.lang_word_ids else ids0
                  if ids.isEmpty then .error "Sentence has no lang_word_ids."
                  else if build_child_sentence_ontology s ids = "" then
                    .error "No ontology data available for provided lang_word_ids."
                  else
                    match o.text_reply with
                    | .error m => .error m
                    | .ok _result_text =>
                      if o.parsed_items.isEmpty then
                        .error "LLM returned no parsable child sentences."
                      else
                        let s1 := insert_child_sentences sentence_id ids s o.parsed_items
                        .ok (update_task s1 t.id
                          (fun u => { u with status := .done, error := none }))
      else if t.task_type = "create_child_words" then
        if ¬ s.words.any (fun w => w.id = t.parent_lang_word_id) then
          .error "Parent lang word not found."
        else
          match run_create_child_words_llm o with
          | .error m => .error m
          | .ok phrases =>
            let (s1, version_id) := ensure_word_has_v1 s t.parent_lang_word_id
            let s2 := insert_child_words_dedup version_id s1 phrases []
            .ok (update_task s2 t.id (fun u => { u with status := .done, error := none }))
      else if t.task_type ≠ "create_lang_words" then
        .error ("Unknown task_type: " ++ t.task_type)
      else
        if ¬ s.words.any (fun w => w.id = t.parent_lang_word_id) then
          .error "Parent lang word not found."
        else
          match run_create_lang_words_llm o with
          | .error m => .error m
          | .ok plan =>
            let row : WritingRow :=
              ⟨s.nextWritingId, t.parent_lang_word_id, "create_lang_words",
               .parsed plan, some t.id⟩
            let s1 := { s with writings := s.writings ++ [row],
                               nextWritingId := s.nextWritingId + 1 }
            .ok (update_task s1 t.id
              (fun u => { u with status := .done, result_writing_id := some row.id }))

/-- The committed states produced after the claim commit: the `done` state
on success (followed, when `log_llm_usage` raises, by the `except`
handler's `error` re-mark of the already-done task), or the single `error`
state when the body raised before its writes. -/
def run_claimed (s1 : Store) (t : TaskRow) (o : Oracle) : List Store :=
  match dispatch_try s1 t o with
  | .error m => [mark_task_error s1 t.id m]
  | .ok s2 =>
    match o.log_err with
    | none => [s2]
    | some m => [s2, mark_task_error s2 t.id m]

/-- `_process_one_task`: the sequence of committed states it produces (the
claim commit first, then the states of `run_claimed`); empty when no task
is queued. -/
def process_one_task (s : Store) (o : Oracle) : List Store :=
  match claim_next s with
  | none => []
  | some (s1, t) => s1 :: run_claimed s1 t o

-- ---------------------------------------------------------------------
-- Invariant vocabulary and helper definitions for the statements
-- ---------------------------------------------------------------------

/-- The `version` number `create_next_version` mints:
`max(existing) + 1`, or 1 when the concept has no versions. -/
def next_version_num (s : Store) (wid : Nat) : Nat :=
  match s.latestVersionRow wid with
  | some last => last.version + 1
  | none => 1

/-- Counter soundness: every row id (and every foreign id a later insert
could collide with) is below its table's `AUTOINCREMENT` counter.  Holds in
every store SQLite can actually produce. -/
def Store.applyBounds (s : Store) : Prop :=
  (∀ w ∈ s.words, w.id < s.nextWordId) ∧
  (∀ v ∈ s.versions, v.id < s.nextVersionId) ∧
  (∀ v ∈ s.versions, v.lang_word_id < s.nextWordId) ∧
  (∀ c ∈ s.childWords, c.lang_word_version_id < s.nextVersionId)

/-- The staged plan's `themes` value as the apply endpoint computes it
(present, parsed, dict payload, `themes` defaulted to `[]` unless a list). -/
def staged_themes (s : Store) (wid : Nat) : Option (List Json) :=
  (s.writings.find? (fun w => w.id = wid)).bind (fun wr =>
    if wr.prompt_type ≠ "create_lang_words" then none
    else
      wr.text.loadsOrEmptyObj.bind (fun payload =>
        match payload.getAttrE "themes" with
        | .error _ => none
        | .ok (some (.arr xs)) => some xs
        | .ok _ => some []))

/-- The status of task `tid` in a committed state (`None` when no such
row). -/
def status_in (s : Store) (tid : Nat) : Option TaskStatus :=
  (s.tasks.find? (fun t => t.id = tid)).map (·.status)

/-- The transitions a single commit may apply to one task's status:
unchanged, claim (`queued→running`), completion (`running→done` /
`running→error`), or the post-`done` re-mark to `error` performed by the
`except` handler when a failure (e.g. in usage logging) occurs after the
`done` commit of the same invocation. -/
def status_step_ok (a b : Option TaskStatus) : Prop :=
  a = b ∨
  (a = some .queued ∧ b = some .running) ∨
  (a = some .running ∧ b = some .done) ∨
  (a = some .running ∧ b = some .error) ∨
  (a = some .done ∧ b = some .error)

-- ---------------------------------------------------------------------
-- Concrete stores and oracles used by the counterexamples and witnesses
-- ---------------------------------------------------------------------

/-- The freshly initialised database (`ensure_schema` on an empty file):
no rows, every `AUTOINCREMENT` counter at 1. -/
def emptyStore : Store :=
  ⟨[], [], [], [], [], [], [], [], [], 1, 1, 1, 1, 1, 1, 1⟩

/-- Create concept "w" (id 1, version 1). -/
def exC2_s1 : Store := (create_lang_word_generic emptyStore "w").1

/-- Mint version 2 of "w" (version row id 2). -/
def exC2_s2 : Store := (create_next_version exC2_s1 1).1

/-- Delete the version-2 row. -/
def exC2_s3 : Store := delete_lang_word_version exC2_s2 2

/-- Mint the next version of "w" again. -/
def exC2_s4 : Store := (create_next_version exC2_s3 1).1

/-- Concept 1 "w" with version 1 (row id 1), a phrase row id 1 under it,
and one already-queued star task for `(subject 1, create_star_stuff_words)`. -/
def exC3 : Store :=
  ⟨[⟨1, "w"⟩], [⟨1, 1, 1⟩], [⟨1, 1, "p", none⟩], [],
   [⟨1, 1, "create_star_stuff_words", .obj [("child_word_id", .num 1)],
     .obj [("modifier", .str "")], .queued, none, none⟩],
   [], [], [], [], 2, 2, 2, 2, 1, 1, 1⟩

/-- Concept 1 "w" with an in-flight `create_lang_words` task. -/
def exC3w : Store :=
  ⟨[⟨1, "w"⟩], [⟨1, 1, 1⟩], [], [],
   [⟨1, 1, "create_lang_words", .obj [("parent_lang_word_id", .num 1)],
     .obj [("modifier", .str "")], .queued, none, none⟩],
   [], [], [], [], 2, 2, 1, 2, 1, 1, 1⟩

/-- Concept 1 "w" whose only `create_lang_words` task is already `done`. -/
def exC3t : Store :=
  ⟨[⟨1, "w"⟩], [⟨1, 1, 1⟩], [], [],
   [⟨1, 1, "create_lang_words", .obj [("parent_lang_word_id", .num 1)],
     .obj [("modifier", .str "")], .done, none, some 1⟩],
   [], [], [], [], 2, 2, 1, 2, 2, 1, 1⟩

/-- Exactly one queued task (id 1). -/
def exC4 : Store := exC3w

/-- The task claim_next picks in `exC4`. -/
def exC4_task : TaskRow :=
  ⟨1, 1, "create_lang_words", .obj [("parent_lang_word_id", .num 1)],
   .obj [("modifier", .str "")], .queued, none, none⟩

/-- The store after `claim_next` on `exC4`. -/
def exC4_after : Store :=
  update_task exC4 1 (fun u => { u with status := .running })

/-- One queued `create_lang_words` task for concept 1. -/
def exC5 : Store := exC3w

/-- Oracle for the C5 runs: the plan call succeeds with `{"themes": []}`,
but `log_llm_usage` raises (its target tables in `llm_usage.db` are never
created by this repository). -/
def exO5 : Oracle :=
  ⟨.error "unused", .ok (.obj [("themes", .arr [])]), .error "unused", [],
   some "no such table: usage_events"⟩

/-- Two concepts "a" (id 1, version row 1) and "b" (id 2, version row 2),
no edges: both are roots. -/
def exC6 : Store :=
  ⟨[⟨1, "a"⟩, ⟨2, "b"⟩], [⟨1, 1, 1⟩, ⟨2, 2, 1⟩], [], [], [], [], [], [],
   [], 3, 3, 1, 1, 1, 1, 1⟩

/-- `exC6` with the edge `(version 1 of "a") → "b"`. -/
def exC6_linked : Store := (add_child_lang_word exC6 1 2).1

/-- `exC6_linked` with that edge deleted again. -/
def exC6_unlinked : Store := (delete_child_lang_word exC6_linked 1 2).1

/-- A store holding concept "Foo" (capital F). -/
def exC7 : Store :=
  ⟨[⟨1, "Foo"⟩], [⟨1, 1, 1⟩], [], [], [], [], [], [], [], 2, 2, 1, 1, 1, 1, 1⟩

/-- Concept 1 "w" whose single version row (id 1) is its only version. -/
def exC8 : Store :=
  ⟨[⟨1, "w"⟩], [⟨1, 1, 1⟩], [], [], [], [], [], [], [], 2, 2, 1, 1, 1, 1, 1⟩

/-- Concept 1 "w" with a staged `create_lang_words` artifact (id 1) whose
stored text does not parse as JSON. -/
def exC9 : Store :=
  ⟨[⟨1, "w"⟩], [⟨1, 1, 1⟩], [], [], [],
   [⟨1, 1, "create_lang_words", .invalid, some 1⟩],
   [], [], [], 2, 2, 1, 1, 2, 1, 1⟩

/-- Concept 1 "w" with a staged artifact whose payload parses but offers no
usable themes: `{"themes": [{"theme": ""}, 7]}`. -/
def exC10 : Store :=
  ⟨[⟨1, "w"⟩], [⟨1, 1, 1⟩], [], [], [],
   [⟨1, 1, "create_lang_words",
     .parsed (.obj [("themes", .arr [.obj [("theme", .str "")], .num 7])]), some 1⟩],
   [], [], [], 2, 2, 1, 1, 2, 1, 1⟩

/-- The §8 scenario: concept "microgrid" (id 1, v1) and an existing
concept "battery storage" (id 2) whose version 1 (row id 2) already holds
the phrase "old phrase"; a staged plan proposes theme "battery storage"
with phrases `["state of charge", "cycle life"]`. -/
def exC1 : Store :=
  ⟨[⟨1, "microgrid"⟩, ⟨2, "battery storage"⟩], [⟨1, 1, 1⟩, ⟨2, 2, 1⟩],
   [⟨1, 2, "old phrase", none⟩], [], [],
   [⟨1, 1, "create_lang_words",
     .parsed (.obj [("themes", .arr
       [.obj [("theme", .str "battery storage"),
              ("orbiting_phrases", .arr [.str "state of charge", .str "cycle life"])]])]),
     some 1⟩],
   [], [], [], 3, 3, 2, 1, 2, 1, 1⟩

/-- How a store grows across (a suffix of) the theme loop of
`apply_create_lang_words`: `words`, `versions` and `child_words` only gain
rows whose ids (resp. owning version ids) are at least the starting
counters, the task/writing tables are untouched, and every concept the
loop itself created owns a version-1 row. -/
structure LoopExt (s0 s2 : Store) : Prop where
  words_ext : ∃ nw, s2.words = s0.words ++ nw ∧ ∀ w ∈ nw, s0.nextWordId ≤ w.id
  versions_ext : ∃ nv, s2.versions = s0.versions ++ nv ∧ ∀ v ∈ nv, s0.nextVersionId ≤ v.id
  childWords_ext : ∃ nc, s2.childWords = s0.childWords ++ nc ∧
    ∀ c ∈ nc, s0.nextVersionId ≤ c.lang_word_version_id
  wordCtr_le : s0.nextWordId ≤ s2.nextWordId
  verCtr_le : s0.nextVersionId ≤ s2.nextVersionId
  tasks_eq : s2.tasks = s0.tasks
  writings_eq : s2.writings = s0.writings
  fresh_words_have_v1 : ∀ w ∈ s2.words, w ∉ s0.words →
    ∃ v ∈ s2.versions, v.lang_word_id = w.id ∧ v.version = 1

/-- What one `created` entry of the theme loop guarantees, relative to the
store `s0` the loop started from and the final store `sF`: the minted child
version is fresh; a theme name already present in `s0` reuses that concept
and receives a version strictly above all of its `s0` versions; a theme
name absent from `s0` is backed by a newly created concept that owns a
version-1 row. -/
def EntryOK (s0 sF : Store) (e : CreatedEntry) : Prop :=
  s0.nextVersionId ≤ e.child_version_id ∧
  (∀ w, s0.words.find? (fun x => x.word = e.word) = some w →
    e.child_lang_word_id = w.id ∧
    ∃ v ∈ sF.versions, v.id = e.child_version_id ∧ v.lang_word_id = w.id ∧
      ∀ v0 ∈ s0.versions, v0.lang_word_id = w.id → v0.version < v.version) ∧
  (s0.words.find? (fun x => x.word = e.word) = none →
    s0.nextWordId ≤ e.child_lang_word_id ∧
    (∃ row ∈ sF.words, row.id = e.child_lang_word_id ∧ row.word = e.word) ∧
    (∃ v ∈ sF.versions, v.lang_word_id = e.child_lang_word_id ∧ v.version = 1))

/-- The store after applying the staged microgrid plan of `exC1`. -/
def exC1_applied : Store := (apply_create_lang_words exC1 1).1

/-- The store after applying the theme-free staged plan of `exC10`. -/
def exC10_applied : Store := (apply_create_lang_words exC10 1).1

-- ---------------------------------------------------------------------
-- Toolbox lemmas
-- ---------------------------------------------------------------------

theorem pickMaxBy_cons {α : Type} (f : α → Nat) (x : α) (xs : List α) :
    pickMaxBy f (x :: xs) = match pickMaxBy f xs with
      | none => some x
      | some y => if f y ≤ f x then some x else some y := rfl

theorem pickMaxBy_eq_none_iff {α : Type} (f : α → Nat) (l : List α) :
    pickMaxBy f l = none ↔ l = [] := by
  cases l with
  | nil => simp [pickMaxBy]
  | cons x xs =>
    rw [pickMaxBy_cons]
    cases hx : pickMaxBy f xs with
    | none => simp
    | some z =>
      constructor
      · intro h
        have h' : (if f z ≤ f x then some x else some z) = (none : Option α) := h
        split at h' <;> simp at h'
      · intro h
        simp at h
    
theorem pickMaxBy_mem {α : Type} (f : α → Nat) :
    ∀ {l : List α} {y : α}, pickMaxBy f l = some y → y ∈ l := by
  intro l
  induction l with
  | nil => intro y h; simp [pickMaxBy] at h
  | cons x xs ih =>
    intro y h
    rw [pickMaxBy_cons] at h
    cases hx : pickMaxBy f xs with
    | none =>
      rw [hx] at h
      have h' : some x = some y := h
      simp at h'
      simp [h']
    | some z =>
      rw [hx] at h
      have h' : (if f z ≤ f x then some x else some z) = some y := h
      by_cases hle : f z ≤ f x
      · rw [if_pos hle] at h'
        simp at h'
        simp [h']
      · rw [if_neg hle] at h'
        simp at h'
        exact List.mem_cons_of_mem _ (ih (h' ▸ hx))

theorem pickMaxBy_is_max {α : Type} (f : α → Nat) :
    ∀ {l : List α} {y : α}, pickMaxBy f l = some y → ∀ x ∈ l, f x ≤ f y := by
  intro l
  induction l with
  | nil => intro y h; simp [pickMaxBy] at h
  | cons x xs ih =>
    intro y h a ha
    rw [pickMaxBy_cons] at h
    cases hx : pickMaxBy f xs with
    | none =>
      have hxs : xs = [] := (pickMaxBy_eq_none_iff f xs).mp hx
      subst hxs
      have h' : some x = some y := h
      simp at h'
      simp at ha
      subst h'; subst ha; exact le_refl _
    | some z =>
      rw [hx] at h
      have h' : (if f z ≤ f x then some x else some z) = some y := h
      have hz := ih hx
      by_cases hle : f z ≤ f x
      · rw [if_pos hle] at h'
        have hxy : x = y := by simpa using h'
        subst hxy
        rcases List.mem_cons.mp ha with h1 | h1
        · subst h1; exact le_refl _
        · exact le_trans (hz a h1) hle
      · rw [if_neg hle] at h'
        have hzy : z = y := by simpa using h'
        subst hzy
        rcases List.mem_cons.mp ha with h1 | h1
        · subst h1; omega
        · exact hz a h1

theorem pickMinBy_cons {α : Type} (f : α → Nat) (x : α) (xs : List α) :
    pickMinBy f (x :: xs) = match pickMinBy f xs with
      | none => some x
      | some y => if f x ≤ f y then some x else some y := rfl

theorem pickMinBy_eq_none_iff {α : Type} (f : α → Nat) (l : List α) :
    pickMinBy f l = none ↔ l = [] := by
  cases l with
  | nil => simp [pickMinBy]
  | cons x xs =>
    rw [pickMinBy_cons]
    cases hx : pickMinBy f xs with
    | none => simp
    | some z =>
      constructor
      · intro h
        have h' : (if f x ≤ f z then some x else some z) = (none : Option α) := h
        split at h' <;> simp at h'
      · intro h
        simp at h

theorem pickMinBy_mem {α : Type} (f : α → Nat) :
    ∀ {l : List α} {y : α}, pickMinBy f l = some y → y ∈ l := by
  intro l
  induction l with
  | nil => intro y h; simp [pickMinBy] at h
  | cons x xs ih =>
    intro y h
    rw [pickMinBy_cons] at h
    cases hx : pickMinBy f xs with
    | none =>
      rw [hx] at h
      have h' : some x = some y := h
      simp at h'
      simp [h']
    | some z =>
      rw [hx] at h
      have h' : (if f x ≤ f z then some x else some z) = some y := h
      by_cases hle : f x ≤ f z
      · rw [if_pos hle] at h'
        simp at h'
        simp [h']
      · rw [if_neg hle] at h'
        simp at h'
        exact List.mem_cons_of_mem _ (ih (h' ▸ hx))

theorem pickMinBy_is_min {α : Type} (f : α → Nat) :
    ∀ {l : List α} {y : α}, pickMinBy f l = some y → ∀ x ∈ l, f y ≤ f x := by
  intro l
  induction l with
  | nil => intro y h; simp [pickMinBy] at h
  | cons x xs ih =>
    intro y h a ha
    rw [pickMinBy_cons] at h
    cases hx : pickMinBy f xs with
    | none =>
      have hxs : xs = [] := (pickMinBy_eq_none_iff f xs).mp hx
      subst hxs
      have h' : some x = some y := h
      simp at h'
      simp at ha
      subst h'; subst ha; exact le_refl _
    | some z =>
      rw [hx] at h
      have h' : (if f x ≤ f z then some x else some z) = some y := h
      have hz := ih hx
      by_cases hle : f x ≤ f z
      · rw [if_pos hle] at h'
        have hxy : x = y := by simpa using h'
        subst hxy
        rcases List.mem_cons.mp ha with h1 | h1
        · subst h1; exact le_refl _
        · exact le_trans hle (hz a h1)
      · rw [if_neg hle] at h'
        have hzy : z = y := by simpa using h'
        subst hzy
        rcases List.mem_cons.mp ha with h1 | h1
        · subst h1; omega
        · exact hz a h1

theorem find?_append_left {α : Type} (p : α → Bool) {l₁ : List α} (l₂ : List α) {a : α}
    (h : l₁.find? p = some a) : (l₁ ++ l₂).find? p = some a := by
  rw [List.find?_append, h]
  rfl

theorem find?_append_none {α : Type} (p : α → Bool) {l₁ : List α} (l₂ : List α)
    (h : l₁.find? p = none) : (l₁ ++ l₂).find? p = l₂.find? p := by
  rw [List.find?_append, h]
  rfl

theorem mem_versionsOf {s : Store} {wid : Nat} {v : VersionRow} :
    v ∈ s.versionsOf wid ↔ v ∈ s.versions ∧ v.lang_word_id = wid := by
  simp [Store.versionsOf, List.mem_filter]

theorem latestVersionRow_is_max {s : Store} {wid : Nat} {last : VersionRow}
    (h : s.latestVersionRow wid = some last) :
    ∀ v ∈ s.versions, v.lang_word_id = wid → v.version ≤ last.version := by
  intro v hv hw
  exact pickMaxBy_is_max _ h v (mem_versionsOf.mpr ⟨hv, hw⟩)

theorem latestVersionRow_mem {s : Store} {wid : Nat} {last : VersionRow}
    (h : s.latestVersionRow wid = some last) :
    last ∈ s.versions ∧ last.lang_word_id = wid :=
  mem_versionsOf.mp (pickMaxBy_mem _ h)

theorem latestVersionRow_eq_none_iff {s : Store} {wid : Nat} :
    s.latestVersionRow wid = none ↔ s.versionsOf wid = [] :=
  pickMaxBy_eq_none_iff _ _

theorem next_version_num_gt {s : Store} {wid : Nat} :
    ∀ v ∈ s.versions, v.lang_word_id = wid → v.version < next_version_num s wid := by
  intro v hv hw
  unfold next_version_num
  cases h : s.latestVersionRow wid with
  | none =>
    exfalso
    have h0 := latestVersionRow_eq_none_iff.mp h
    have : v ∈ s.versionsOf wid := mem_versionsOf.mpr ⟨hv, hw⟩
    rw [h0] at this
    simp at this
  | some last =>
    have := latestVersionRow_is_max h v hv hw
    show v.version < last.version + 1
    omega

theorem create_next_version_eq (s : Store) (wid : Nat) :
    create_next_version s wid =
      ({ s with
          versions := s.versions ++ [⟨s.nextVersionId, wid, next_version_num s wid⟩],
          nextVersionId := s.nextVersionId + 1 }, s.nextVersionId) := by
  unfold create_next_version next_version_num
  cases s.latestVersionRow wid <;> rfl

theorem pickMaxBy_append_last_max {α : Type} (f : α → Nat) {l : List α} {y : α}
    (h : ∀ x ∈ l, f x < f y) : pickMaxBy f (l ++ [y]) = some y := by
  induction l with
  | nil => rfl
  | cons x xs ih =>
    rw [List.cons_append, pickMaxBy_cons, ih (fun a ha => h a (List.mem_cons_of_mem _ ha))]
    have hx : f x < f y := h x (List.mem_cons_self _ _)
    have : ¬ f y ≤ f x := by omega
    simp [this]

theorem versionsOf_append_self (s : Store) (wid : Nat) (row : VersionRow)
    (hrow : row.lang_word_id = wid) :
    Store.versionsOf { s with
        versions := s.versions ++ [row],
        nextVersionId := s.nextVersionId + 1 } wid = s.versionsOf wid ++ [row] := by
  simp [Store.versionsOf, List.filter_append, hrow]

-- ---------------------------------------------------------------------
-- C2: version numbering
-- ---------------------------------------------------------------------

/-- C2 (counterexample to the claim as stated): create concept "w", mint
version 2 (row id 2), delete that row with `deleteVersion`, and call
`nextVersion` again: the new row (id 3) carries version number 2 — a
previously used number is minted again, and between the delete and the
re-mint the concept's version set was `{1}` (its maximum had decreased), so
"never reused and never decrease" and "the set is `{1,...,n}` with n
strictly increasing" are false once `deleteVersion` is involved. -/
theorem deleted_version_number_is_reused :
    exC2_s2.versions = [⟨1, 1, 1⟩, ⟨2, 1, 2⟩]
    ∧ exC2_s3.versionNumsOf 1 = [1]
    ∧ exC2_s4.versions = [⟨1, 1, 1⟩, ⟨3, 1, 2⟩]
    ∧ exC2_s2.versionNumsOf 1 = exC2_s4.versionNumsOf 1 := by decide

/-- C2 (amended): `nextVersion` itself is correct and monotone: it creates
the new version with number `max(existing)+1` (or 1 if no versions exist),
a number strictly greater than — hence distinct from — every live version
number of the concept, and it strictly increases the concept's maximal
version.  But version numbers are not "never reused" in general:
`deleteVersion` can remove any row (see the counterexample), after which
the deleted maximal number is minted again. -/
theorem create_next_version_strictly_increases (s : Store) (wid : Nat) :
    (create_next_version s wid).1.versionNumsOf wid
        = s.versionNumsOf wid ++ [next_version_num s wid]
    ∧ (∀ v ∈ s.versions, v.lang_word_id = wid → v.version < next_version_num s wid)
    ∧ (s.versionsOf wid = [] → next_version_num s wid = 1)
    ∧ next_version_num s wid ∉ s.versionNumsOf wid
    ∧ (create_next_version s wid).1.maxVersionOf wid = some (next_version_num s wid) := by
  refine ⟨?_, next_version_num_gt, ?_, ?_, ?_⟩
  · rw [create_next_version_eq]
    simp only [Store.versionNumsOf, versionsOf_append_self _ _ _ rfl, List.map_append]
    rfl
  · intro h0
    unfold next_version_num
    rw [latestVersionRow_eq_none_iff.mpr h0]
  · intro hmem
    simp only [Store.versionNumsOf, List.mem_map] at hmem
    obtain ⟨v, hv, hveq⟩ := hmem
    obtain ⟨hv1, hv2⟩ := mem_versionsOf.mp hv
    have := next_version_num_gt v hv1 hv2
    omega
  · rw [create_next_version_eq]
    simp only [Store.maxVersionOf, Store.latestVersionRow, versionsOf_append_self _ _ _ rfl]
    rw [pickMaxBy_append_last_max]
    · rfl
    · intro v hv
      obtain ⟨hv1, hv2⟩ := mem_versionsOf.mp hv
      exact next_version_num_gt v hv1 hv2

/-- Witness: the amended C2 theorem applied to the one-version store
`exC8`. -/
theorem create_next_version_strictly_increases_witness :
    (create_next_version exC8 1).1.versionNumsOf 1
        = exC8.versionNumsOf 1 ++ [next_version_num exC8 1]
    ∧ (⟨1, 1, 1⟩ : VersionRow).version < next_version_num exC8 1 :=
  ⟨(create_next_version_strictly_increases exC8 1).1,
   (create_next_version_strictly_increases exC8 1).2.1 ⟨1, 1, 1⟩ (by decide) rfl⟩

-- ---------------------------------------------------------------------
-- C8: deleteVersion has no last-version guard
-- ---------------------------------------------------------------------

/-- C8 (counterexample): concept 1 ("w") has exactly one version (row id
1); `delete_lang_word_version` deletes it anyway — the endpoint always
answers `ok` — leaving the concept with zero versions, so the claimed
rejection does not exist in the code. -/
theorem last_version_delete_not_rejected :
    exC8.versionsOf 1 = [⟨1, 1, 1⟩]
    ∧ (delete_lang_word_version exC8 1).versions = []
    ∧ (delete_lang_word_version exC8 1).words = [⟨1, "w"⟩] := by decide

/-- C8 (amended): `deleteVersion(id)` deletes the targeted version row
unconditionally — even when it is the concept's only remaining version,
which then has zero versions — cascading the version's phrases and
outgoing edges, and leaving the concept row itself in place. -/
theorem delete_lang_word_version_unconditional (s : Store) (vid : Nat) :
    (delete_lang_word_version s vid).versions = s.versions.filter (fun v => ¬ v.id = vid)
    ∧ ((∃ v ∈ s.versions, v.id = vid) →
        (delete_lang_word_version s vid).childWords
            = s.childWords.filter (fun c => ¬ c.lang_word_version_id = vid)
        ∧ (delete_lang_word_version s vid).edges
            = s.edges.filter (fun e => ¬ e.parent_lang_word_version_id = vid)
        ∧ (delete_lang_word_version s vid).words = s.words) := by
  unfold delete_lang_word_version
  by_cases h : s.versions.any (fun v => v.id = vid) = true
  · rw [if_pos h]
    exact ⟨rfl, fun _ => ⟨rfl, rfl, rfl⟩⟩
  · rw [if_neg h]
    constructor
    · have h' : ∀ v ∈ s.versions, ¬ v.id = vid := by
        simp only [List.any_eq_true, decide_eq_true_eq] at h
        push_neg at h
        exact h
      rw [List.filter_eq_self.mpr]
      intro v hv
      simpa using h' v hv
    · intro ⟨v, hv, hid⟩
      exfalso
      exact h (List.any_eq_true.mpr ⟨v, hv, by simp [hid]⟩)

/-- Witness: the amended C8 theorem applied to `exC8` and its only
version row. -/
theorem delete_lang_word_version_unconditional_witness :
    (delete_lang_word_version exC8 1).versions
        = exC8.versions.filter (fun v => ¬ v.id = 1)
    ∧ (delete_lang_word_version exC8 1).words = exC8.words :=
  ⟨(delete_lang_word_version_unconditional exC8 1).1,
   ((delete_lang_word_version_unconditional exC8 1).2
     ⟨⟨1, 1, 1⟩, by decide, rfl⟩).2.2⟩

-- ---------------------------------------------------------------------
-- C7: createConcept and the UNIQUE(word) conflict
-- ---------------------------------------------------------------------

theorem versionsOf_eq_nil_of_lt {s : Store} {wid : Nat}
    (h : ∀ v ∈ s.versions, v.lang_word_id < wid) : s.versionsOf wid = [] := by
  rw [Store.versionsOf, List.filter_eq_nil_iff]
  intro v hv
  have := h v hv
  simp
  omega

/-- C7: `createConcept(text)`.  With a fresh (case-sensitively compared)
`word`, `create_lang_word_generic` inserts the concept row together with
its version 1 and reports both ids; when a concept with exactly the same
text already exists, the `INSERT` violates `lang_words.word UNIQUE`, the
uncaught `sqlite3.IntegrityError` ends the request before `db.commit()`,
and the rolled-back store is unchanged. -/
theorem create_lang_word_conflict_or_creates (s : Store) (t : String)
    (hne : ¬ pyStrip t = "")
    (hfk : ∀ v ∈ s.versions, v.lang_word_id < s.nextWordId) :
    ((∃ w ∈ s.words, w.word = pyStrip t) →
        create_lang_word_generic s t = (s, .integrityError))
    ∧ ((∀ w ∈ s.words, ¬ w.word = pyStrip t) →
        create_lang_word_generic s t =
          ({ s with
              words := s.words ++ [⟨s.nextWordId, pyStrip t⟩],
              versions := s.versions ++ [⟨s.nextVersionId, s.nextWordId, 1⟩],
              nextWordId := s.nextWordId + 1,
              nextVersionId := s.nextVersionId + 1 },
           .created s.nextWordId s.nextVersionId (pyStrip t))) := by
  constructor
  · intro ⟨w, hw, hword⟩
    have hany : s.words.any (fun x => x.word = pyStrip t) = true :=
      List.any_eq_true.mpr ⟨w, hw, by simp [hword]⟩
    unfold create_lang_word_generic
    rw [if_neg hne, if_pos hany]
  · intro hfresh
    have hany : ¬ s.words.any (fun x => x.word = pyStrip t) = true := by
      simp only [List.any_eq_true, decide_eq_true_eq]
      push_neg
      exact hfresh
    have hnone : Store.latestVersionRow
        { s with
          words := s.words ++ [⟨s.nextWordId, pyStrip t⟩],
          nextWordId := s.nextWordId + 1 } s.nextWordId = none := by
      rw [Store.latestVersionRow, pickMaxBy_eq_none_iff]
      exact versionsOf_eq_nil_of_lt hfk
    unfold create_lang_word_generic
    rw [if_neg hne, if_neg hany]
    simp only [insert_lang_word, ensure_word_has_v1]
    rw [hnone]

/-- Witness: on a store holding only "Foo", creating "Foo" hits the
conflict (store unchanged), while creating "foo" — differing only in case —
succeeds with concept id 2 and version 1: the uniqueness check is
case-sensitive. -/
theorem create_lang_word_conflict_or_creates_witness :
    create_lang_word_generic exC7 "Foo" = (exC7, .integrityError)
    ∧ (create_lang_word_generic exC7 "foo").2 = .created 2 2 "foo" := by
  constructor
  · exact (create_lang_word_conflict_or_creates exC7 "Foo" (by decide) (by decide)).1
      ⟨⟨1, "Foo"⟩, by decide, by decide⟩
  · rw [(create_lang_word_conflict_or_creates exC7 "foo" (by decide) (by decide)).2
      (by decide)]
    decide

-- ---------------------------------------------------------------------
-- C4: claimNext
-- ---------------------------------------------------------------------

theorem claim_next_eq (s : Store) :
    claim_next s = match pickMinBy (·.id) (s.tasks.filter (fun t => t.status = .queued)) with
      | none => none
      | some t => some (update_task s t.id (fun u => { u with status := .running }), t) := rfl

theorem status_in_update (s : Store) (tid : Nat) (f : TaskRow → TaskRow) (st : TaskStatus)
    (hid : ∀ u, (f u).id = u.id) (hst : ∀ u, (f u).status = st) (tid' : Nat) :
    status_in (update_task s tid f) tid' =
      if tid' = tid then (status_in s tid).map (fun _ => st) else status_in s tid' := by
  unfold status_in update_task
  simp only [List.find?_map]
  have hpg : (fun (t : TaskRow) => decide (t.id = tid')) ∘
      (fun t => if t.id = tid then f t else t) = (fun t => decide (t.id = tid')) := by
    funext u
    by_cases hu : u.id = tid
    · simp [hu, hid]
    · simp [hu]
  rw [hpg]
  by_cases htid : tid' = tid
  · subst htid
    cases h : s.tasks.find? (fun t => t.id = tid') with
    | none => simp
    | some u =>
      have hu : u.id = tid' := by simpa using List.find?_some h
      simp [hu, hst]
  · cases h : s.tasks.find? (fun t => t.id = tid') with
    | none => simp [htid]
    | some u =>
      have hu : u.id = tid' := by simpa using List.find?_some h
      have : ¬ u.id = tid := by rw [hu]; exact htid
      simp [htid, this]

/-- C4: `claimNext` (the claim step of `_process_one_task`): it returns
nothing iff no queued task exists; otherwise it returns the queued task of
minimal id together with the state in which exactly that task has been
transitioned to `running`; and with exactly one queued task present, a
second invocation on the resulting state returns empty — the task is
handed out exactly once. -/
theorem claim_next_claims_oldest_queued_exactly_once (s : Store) :
    (claim_next s = none ↔ ∀ t ∈ s.tasks, ¬ t.status = .queued)
    ∧ (∀ s' t, claim_next s = some (s', t) →
        t ∈ s.tasks ∧ t.status = .queued
        ∧ (∀ u ∈ s.tasks, u.status = .queued → t.id ≤ u.id)
        ∧ s' = update_task s t.id (fun u => { u with status := .running })
        ∧ status_in s' t.id = some .running)
    ∧ ((s.tasks.filter (fun t => t.status = .queued)).length = 1 →
        ∀ s' t, claim_next s = some (s', t) → claim_next s' = none) := by
  refine ⟨?_, ?_, ?_⟩
  · rw [claim_next_eq]
    cases h : pickMinBy (·.id) (s.tasks.filter (fun t => t.status = .queued)) with
    | none =>
      simp only [true_iff]
      have : s.tasks.filter (fun t => t.status = .queued) = [] :=
        (pickMinBy_eq_none_iff _ _).mp h
      intro t ht hq
      have : t ∈ s.tasks.filter (fun t => t.status = .queued) :=
        List.mem_filter.mpr ⟨ht, by simp [hq]⟩
      simp_all
    | some t =>
      simp only [reduceCtorEq, false_iff]
      push_neg
      have hmem := pickMinBy_mem _ h
      obtain ⟨ht, hq⟩ := List.mem_filter.mp hmem
      exact ⟨t, ht, by simpa using hq⟩
  · intro s' t hsome
    rw [claim_next_eq] at hsome
    cases h : pickMinBy (·.id) (s.tasks.filter (fun t => t.status = .queued)) with
    | none => rw [h] at hsome; exact absurd hsome (by simp)
    | some t0 =>
      rw [h] at hsome
      have h' : t0 = t := by simpa using congrArg (fun x => x.map Prod.snd) hsome
      subst h'
      have hs' : s' = update_task s t0.id (fun u => { u with status := .running }) := by
        have := congrArg (fun x => x.map Prod.fst) hsome
        simp at this
        exact this.symm
      have hmem := pickMinBy_mem _ h
      obtain ⟨ht, hq⟩ := List.mem_filter.mp hmem
      have hq' : t0.status = .queued := by simpa using hq
      refine ⟨ht, hq', ?_, hs', ?_⟩
      · intro u hu huq
        exact pickMinBy_is_min _ h u (List.mem_filter.mpr ⟨hu, by simp [huq]⟩)
      · rw [hs', status_in_update s t0.id (fun u => { u with status := .running })
          .running (fun u => rfl) (fun u => rfl)]
        rw [if_pos rfl]
        have : s.tasks.find? (fun u => u.id = t0.id) ≠ none := by
          intro hf
          have := List.find?_eq_none.mp hf t0 ht
          simp at this
        unfold status_in
        cases hf : s.tasks.find? (fun u => u.id = t0.id) with
        | none => exact absurd hf this
        | some u => simp
  · intro hlen s' t hsome
    rw [claim_next_eq] at hsome
    cases h : pickMinBy (·.id) (s.tasks.filter (fun t => t.status = .queued)) with
    | none => rw [h] at hsome; exact absurd hsome (by simp)
    | some t0 =>
      rw [h] at hsome
      have h' : t0 = t := by simpa using congrArg (fun x => x.map Prod.snd) hsome
      subst h'
      have hs' : s' = update_task s t0.id (fun u => { u with status := .running }) := by
        have := congrArg (fun x => x.map Prod.fst) hsome
        simp at this
        exact this.symm
      have hfil : s.tasks.filter (fun t => t.status = .queued) = [t0] := by
        have hmem := pickMinBy_mem _ h
        cases hcase : s.tasks.filter (fun t => t.status = .queued) with
        | nil => rw [hcase] at hmem; simp at hmem
        | cons a as =>
          rw [hcase] at hlen hmem
          simp at hlen
          have has : as = [] := by
            cases as with
            | nil => rfl
            | cons b bs => simp at hlen
          subst has
          simp at hmem
          rw [hmem]
      rw [claim_next_eq, (pickMinBy_eq_none_iff _ _).mpr]
      rw [List.filter_eq_nil_iff]
      intro u' hu'
      rw [hs'] at hu'
      unfold update_task at hu'
      obtain ⟨u0, hu0, hgu⟩ := List.mem_map.mp hu'
      by_cases hid : u0.id = t0.id
      · rw [if_pos hid] at hgu
        subst hgu
        simp
      · rw [if_neg hid] at hgu
        subst hgu
        intro hq
        have : u0 ∈ s.tasks.filter (fun t => t.status = .queued) :=
          List.mem_filter.mpr ⟨hu0, hq⟩
        rw [hfil] at this
        simp at this
        exact hid (by rw [this])

/-- Witness: `claim_next` on the single-queued-task store `exC4` returns
task 1 and marks it running; a second invocation returns empty. -/
theorem claim_next_claims_oldest_queued_exactly_once_witness :
    claim_next exC4 = some (exC4_after, exC4_task) ∧ claim_next exC4_after = none := by
  constructor
  · rfl
  · exact (claim_next_claims_oldest_queued_exactly_once exC4).2.2 (by decide)
      exC4_after exC4_task (by rfl)

-- ---------------------------------------------------------------------
-- C3: enqueue dedup
-- ---------------------------------------------------------------------

/-- C3 (counterexample to "for every subject concept and task kind"):
`exC3` already holds a `queued` task (id 1) for subject 1 and kind
`create_star_stuff_words`, yet `api_star_stuff_tasks` — the enqueue
endpoint for the star kinds — inserts a second `queued` row (id 2) for the
same `(subject, kind)` and returns its fresh id with no dedup flag: that
endpoint performs no in-flight check at all. -/
theorem star_tasks_not_deduped :
    exC3.inflight 1 "create_star_stuff_words"
      = [⟨1, 1, "create_star_stuff_words", .obj [("child_word_id", .num 1)],
          .obj [("modifier", .str "")], .queued, none, none⟩]
    ∧ (api_star_stuff_tasks exC3 1 ["create_star_stuff_words"] "").2 = .taskIds [2]
    ∧ ((api_star_stuff_tasks exC3 1 ["create_star_stuff_words"] "").1.inflight 1
        "create_star_stuff_words").length = 2 := by
  refine ⟨by rfl, by decide, by decide⟩

/-- C3 (amended): the write-pipeline enqueue endpoint
(`enqueue_create_lang_words`; `enqueue_create_child_words` is identical up
to the kind string) behaves exactly as claimed: while a task with the same
`(subject, 'create_lang_words')` is `queued` or `running` it returns that
task's id with the dedup flag and inserts nothing; once every such task is
terminal (`done`/`error`) it inserts a genuinely new `queued` task with a
fresh id.  The star-kind endpoint `api_star_stuff_tasks`, however, never
dedups (see the counterexample), so the claim does not hold for every task
kind. -/
theorem enqueue_create_lang_words_dedup_spec (s : Store) (pid : Nat) (m : String)
    (hw : s.words.any (fun w => w.id = pid) = true) :
    (∀ t, pickMaxBy (·.id) (s.inflight pid "create_lang_words") = some t →
        enqueue_create_lang_words s pid m = (s, .dedup t.id t.status)
        ∧ t ∈ s.tasks ∧ t.parent_lang_word_id = pid ∧ t.task_type = "create_lang_words"
        ∧ (t.status = .queued ∨ t.status = .running))
    ∧ ((∀ t ∈ s.tasks, t.parent_lang_word_id = pid → t.task_type = "create_lang_words" →
          t.status = .done ∨ t.status = .error) →
       (∀ t ∈ s.tasks, t.id < s.nextTaskId) →
       ∃ row, enqueue_create_lang_words s pid m
           = ({ s with tasks := s.tasks ++ [row], nextTaskId := s.nextTaskId + 1 },
              .enqueued row.id)
         ∧ row.id = s.nextTaskId ∧ row.status = .queued ∧ row.parent_lang_word_id = pid
         ∧ row.task_type = "create_lang_words" ∧ ∀ t ∈ s.tasks, ¬ t.id = row.id) := by
  constructor
  · intro t hpick
    have hmem := pickMaxBy_mem _ hpick
    have hmem' := List.mem_filter.mp hmem
    have hprops : t.parent_lang_word_id = pid ∧ t.task_type = "create_lang_words"
        ∧ (t.status = .queued ∨ t.status = .running) := by
      have := hmem'.2
      simpa using this
    refine ⟨?_, hmem'.1, hprops.1, hprops.2.1, hprops.2.2⟩
    unfold enqueue_create_lang_words
    rw [if_neg (by simp [hw]), hpick]
  · intro hterm hctr
    have hempty : s.inflight pid "create_lang_words" = [] := by
      rw [Store.inflight, List.filter_eq_nil_iff]
      intro t ht
      simp only [decide_eq_true_eq, Bool.not_eq_true, decide_eq_false_iff_not]
      intro ⟨h1, h2, h3⟩
      rcases hterm t ht h1 h2 with h4 | h4 <;> rcases h3 with h5 | h5 <;> simp [h4] at h5
    refine ⟨⟨s.nextTaskId, pid, "create_lang_words",
      .obj [("parent_lang_word_id", .num pid)],
      .obj [("modifier", .str (pyStrip m))], .queued, none, none⟩, ?_, rfl, rfl, rfl, rfl, ?_⟩
    · unfold enqueue_create_lang_words
      rw [if_neg (by simp [hw]), (pickMaxBy_eq_none_iff _ _).mpr hempty]
    · intro t ht
      have := hctr t ht
      simp only []
      omega

/-- Witness: the amended C3 theorem on `exC3w` (in-flight task 1 → dedup,
store unchanged) and on `exC3t` (task terminal → a genuinely new queued
task with id 2). -/
theorem enqueue_create_lang_words_dedup_spec_witness :
    enqueue_create_lang_words exC3w 1 ""
      = (exC3w, .dedup 1 .queued)
    ∧ ∃ row, enqueue_create_lang_words exC3t 1 ""
        = ({ exC3t with tasks := exC3t.tasks ++ [row], nextTaskId := exC3t.nextTaskId + 1 },
           .enqueued row.id)
      ∧ row.id = exC3t.nextTaskId ∧ row.status = .queued := by
  constructor
  · exact ((enqueue_create_lang_words_dedup_spec exC3w 1 "" (by decide)).1
      ⟨1, 1, "create_lang_words", .obj [("parent_lang_word_id", .num 1)],
        .obj [("modifier", .str "")], .queued, none, none⟩ (by rfl)).1
  · obtain ⟨row, h1, h2, h3, _⟩ :=
      (enqueue_create_lang_words_dedup_spec exC3t 1 "" (by decide)).2
        (by decide) (by decide)
    exact ⟨row, h1, h2, h3⟩

-- ---------------------------------------------------------------------
-- C6: derived rootness
-- ---------------------------------------------------------------------

theorem mem_write_tree (s : Store) (e : WriteTreeRoot) :
    e ∈ write_tree s ↔ ∃ w ∈ s.words,
      (∀ ed ∈ s.edges, ¬ ed.child_lang_word_id = w.id) ∧
      e = ⟨w.id, w.word, load_versions s w.id,
        match load_versions s w.id with
        | [] => []
        | latest :: _ => latest.child_lang_words⟩ := by
  unfold write_tree
  rw [List.mem_map]
  constructor
  · intro ⟨w, hw, hfw⟩
    rw [List.mem_insertionSort, List.mem_filter] at hw
    refine ⟨w, hw.1, ?_, ?_⟩
    · intro ed hed heq
      exact (of_decide_eq_true hw.2)
        (List.any_eq_true.mpr ⟨ed, hed, by simp [heq]⟩)
    · rw [← hfw]
  · intro ⟨w, hw, hroot, hfe⟩
    refine ⟨w, ?_, ?_⟩
    · rw [List.mem_insertionSort, List.mem_filter]
      refine ⟨hw, decide_eq_true ?_⟩
      intro hx
      obtain ⟨ed, hed, heq⟩ := List.any_eq_true.mp hx
      exact hroot ed hed (by simpa using heq)
    · rw [hfe]

/-- C6: `listRoots` (`write_tree`) and rootness.  (a) a concept id appears
among the returned roots iff the concept exists and no edge anywhere names
it as a child; (b) each returned root carries its full version history (the
listed version ids are a permutation of all of the concept's version rows);
(c) a successful `addEdge(v, childId)` removes `childId` from the root set
while writing nothing onto the child's concept row (`words` unchanged);
(d) a successful `deleteEdge(v, childId)` restores `childId` to the root
set provided no other inbound edge exists. -/
theorem write_tree_rootness_derived (s : Store) :
    (∀ wid, (∃ e ∈ write_tree s, e.lang_word_id = wid) ↔
        ((∃ w ∈ s.words, w.id = wid) ∧ ∀ ed ∈ s.edges, ¬ ed.child_lang_word_id = wid))
    ∧ (∀ e ∈ write_tree s,
        (e.versions.map (·.version_id)).Perm ((s.versionsOf e.lang_word_id).map (·.id)))
    ∧ (∀ vid cid s', add_child_lang_word s vid cid = (s', .ok) →
        (∀ e ∈ write_tree s', ¬ e.lang_word_id = cid) ∧ s'.words = s.words)
    ∧ (∀ vid cid s', delete_child_lang_word s vid cid = (s', .ok) →
        (∃ w ∈ s.words, w.id = cid) →
        (∀ ed ∈ s.edges, ed.child_lang_word_id = cid → ed.parent_lang_word_version_id = vid) →
        ∃ e ∈ write_tree s', e.lang_word_id = cid) := by
  refine ⟨?_, ?_, ?_, ?_⟩
  · intro wid
    constructor
    · intro ⟨e, he, hid⟩
      obtain ⟨w, hw, hroot, hfe⟩ := (mem_write_tree s e).mp he
      have : e.lang_word_id = w.id := by rw [hfe]
      rw [this] at hid
      subst hid
      exact ⟨⟨w, hw, rfl⟩, hroot⟩
    · intro ⟨⟨w, hw, hid⟩, hroot⟩
      subst hid
      refine ⟨⟨w.id, w.word, load_versions s w.id,
        match load_versions s w.id with
        | [] => []
        | latest :: _ => latest.child_lang_words⟩, ?_, rfl⟩
      exact (mem_write_tree s _).mpr ⟨w, hw, hroot, rfl⟩
  · intro e he
    obtain ⟨w, hw, hroot, hfe⟩ := (mem_write_tree s e).mp he
    have hv : e.versions = load_versions s w.id := by rw [hfe]
    have hid : e.lang_word_id = w.id := by rw [hfe]
    rw [hv, hid]
    unfold load_versions
    rw [List.map_map]
    have : ((fun v : WriteTreeVersion => v.version_id) ∘
        (fun v : VersionRow => (⟨v.id, v.version, s.phrasesOf v.id, s.childLangWordsOf v.id⟩ :
          WriteTreeVersion))) = (fun v : VersionRow => v.id) := rfl
    rw [this]
    exact (List.perm_insertionSort _ _).map _
  · intro vid cid s' hadd
    unfold add_child_lang_word at hadd
    by_cases h1 : ¬ s.versions.any (fun v => v.id = vid) = true
    · rw [if_pos h1] at hadd
      simp at hadd
    · rw [if_neg h1] at hadd
      by_cases h2 : ¬ s.words.any (fun w => w.id = cid) = true
      · rw [if_pos h2] at hadd
        simp at hadd
      · rw [if_neg h2] at hadd
        have hs' : s' = insert_edge_or_ignore s vid cid := by
          have := congrArg Prod.fst hadd
          simpa using this.symm
        have hedge : ∃ ed ∈ s'.edges, ed.child_lang_word_id = cid := by
          rw [hs']
          unfold insert_edge_or_ignore
          by_cases h3 : s.edges.any (fun e =>
              e.parent_lang_word_version_id = vid ∧ e.child_lang_word_id = cid) = true
          · rw [if_pos h3]
            obtain ⟨ed, hed, hprop⟩ := List.any_eq_true.mp h3
            exact ⟨ed, hed, by simp at hprop; exact hprop.2⟩
          · rw [if_neg h3]
            exact ⟨⟨vid, cid⟩, by simp, rfl⟩
        constructor
        · intro e he heq
          obtain ⟨w, hw, hroot, hfe⟩ := (mem_write_tree s' e).mp he
          have : e.lang_word_id = w.id := by rw [hfe]
          rw [this] at heq
          obtain ⟨ed, hed, hc⟩ := hedge
          exact hroot ed hed (by rw [hc, heq])
        · rw [hs']
          unfold insert_edge_or_ignore
          split <;> rfl
  · intro vid cid s' hdel ⟨w, hw, hwid⟩ honly
    unfold delete_child_lang_word at hdel
    by_cases h1 : ¬ s.versions.any (fun v => v.id = vid) = true
    · rw [if_pos h1] at hdel
      simp at hdel
    · rw [if_neg h1] at hdel
      have hs' : s' = { s with edges := s.edges.filter (fun e =>
          ¬ (e.parent_lang_word_version_id = vid ∧ e.child_lang_word_id = cid)) } := by
        have := congrArg Prod.fst hdel
        simpa using this.symm
      subst hwid
      refine ⟨⟨w.id, w.word, load_versions s' w.id,
        match load_versions s' w.id with
        | [] => []
        | latest :: _ => latest.child_lang_words⟩, ?_, rfl⟩
      refine (mem_write_tree s' _).mpr ⟨w, ?_, ?_, rfl⟩
      · rw [hs']
        exact hw
      · intro ed hed heq
        rw [hs'] at hed
        have hed' := List.mem_filter.mp hed
        have hmem := hed'.1
        have hpass := hed'.2
        have hpar := honly ed hmem heq
        simp only [decide_eq_true_eq, Bool.not_eq_true, decide_eq_false_iff_not] at hpass
        exact hpass ⟨hpar, heq⟩

/-- Witness: C6 on `exC6`: "b" (id 2) is a root; after `addEdge(v1-of-a, b)`
it is not (with no write to `words`); after deleting that edge it is again. -/
theorem write_tree_rootness_derived_witness :
    (∃ e ∈ write_tree exC6, e.lang_word_id = 2)
    ∧ (∀ e ∈ write_tree exC6_linked, ¬ e.lang_word_id = 2)
    ∧ exC6_linked.words = exC6.words
    ∧ (∃ e ∈ write_tree exC6_unlinked, e.lang_word_id = 2) := by
  refine ⟨?_, ?_, ?_, ?_⟩
  · exact (write_tree_rootness_derived exC6).1 2 |>.mpr ⟨⟨⟨2, "b"⟩, by decide, rfl⟩, by decide⟩
  · exact ((write_tree_rootness_derived exC6).2.2.1 1 2 exC6_linked rfl).1
  · exact ((write_tree_rootness_derived exC6).2.2.1 1 2 exC6_linked rfl).2
  · exact (write_tree_rootness_derived exC6_linked).2.2.2 1 2 exC6_unlinked rfl
      ⟨⟨2, "b"⟩, by decide, rfl⟩ (by decide)

-- ---------------------------------------------------------------------
-- ApplyEngine lemmas
-- ---------------------------------------------------------------------

theorem insert_orbit_proj (vid : Nat) :
    ∀ (ps : List Json) (s : Store),
      (insert_orbit s vid ps).words = s.words
      ∧ (insert_orbit s vid ps).versions = s.versions
      ∧ (insert_orbit s vid ps).edges = s.edges
      ∧ (insert_orbit s vid ps).tasks = s.tasks
      ∧ (insert_orbit s vid ps).writings = s.writings
      ∧ (insert_orbit s vid ps).nextWordId = s.nextWordId
      ∧ (insert_orbit s vid ps).nextVersionId = s.nextVersionId := by
  intro ps
  induction ps with
  | nil => intro s; exact ⟨rfl, rfl, rfl, rfl, rfl, rfl, rfl⟩
  | cons p rest ih =>
    intro s
    unfold insert_orbit
    by_cases h : pyStrip (Json.pyStr p) = ""
    · rw [if_pos h]
      exact ih s
    · rw [if_neg h]
      exact ih _

theorem insert_orbit_childWords (vid : Nat) :
    ∀ (ps : List Json) (s : Store),
      ∃ rows, (insert_orbit s vid ps).childWords = s.childWords ++ rows
        ∧ rows.map (·.word)
            = (ps.map (fun p => pyStrip (Json.pyStr p))).filter (fun w => ¬ w = "")
        ∧ ∀ r ∈ rows, r.lang_word_version_id = vid := by
  intro ps
  induction ps with
  | nil => intro s; exact ⟨[], by simp [insert_orbit], by simp, by simp⟩
  | cons p rest ih =>
    intro s
    unfold insert_orbit
    by_cases h : pyStrip (Json.pyStr p) = ""
    · rw [if_pos h]
      obtain ⟨rows, h1, h2, h3⟩ := ih s
      refine ⟨rows, h1, ?_, h3⟩
      simp only [List.map_cons, List.filter_cons]
      rw [h]
      simp [h2]
    · rw [if_neg h]
      obtain ⟨rows, h1, h2, h3⟩ := ih (insert_child_word s vid (pyStrip (Json.pyStr p)) none).1
      refine ⟨⟨s.nextChildWordId, vid, pyStrip (Json.pyStr p), none⟩ :: rows, ?_, ?_, ?_⟩
      · rw [h1]
        simp [insert_child_word]
      · simp only [List.map_cons, List.filter_cons]
        simp [h, h2]
      · intro r hr
        rcases List.mem_cons.mp hr with h4 | h4
        · rw [h4]
        · exact h3 r h4

theorem insert_edge_proj (s : Store) (p c : Nat) :
    (insert_edge_or_ignore s p c).words = s.words
    ∧ (insert_edge_or_ignore s p c).versions = s.versions
    ∧ (insert_edge_or_ignore s p c).childWords = s.childWords
    ∧ (insert_edge_or_ignore s p c).tasks = s.tasks
    ∧ (insert_edge_or_ignore s p c).writings = s.writings
    ∧ (insert_edge_or_ignore s p c).nextWordId = s.nextWordId
    ∧ (insert_edge_or_ignore s p c).nextVersionId = s.nextVersionId := by
  unfold insert_edge_or_ignore
  split <;> exact ⟨rfl, rfl, rfl, rfl, rfl, rfl, rfl⟩

theorem ensure_word_has_v1_eq (s : Store) (wid : Nat) :
    ensure_word_has_v1 s wid = match s.latestVersionRow wid with
      | some v => (s, v.id)
      | none => ({ s with
          versions := s.versions ++ [⟨s.nextVersionId, wid, 1⟩],
          nextVersionId := s.nextVersionId + 1 }, s.nextVersionId) := by
  unfold ensure_word_has_v1
  cases s.latestVersionRow wid <;> rfl

theorem apply_themes_loop_light (pvid : Nat) :
    ∀ (themes : List Json) (s0 : Store) (acc : List CreatedEntry) (s2 : Store)
      (out : List CreatedEntry),
      apply_themes_loop pvid s0 themes acc = .ok (s2, out) →
      s2.writings = s0.writings ∧ s2.tasks = s0.tasks
      ∧ ∃ nv, s2.versions = s0.versions ++ nv := by
  intro themes
  induction themes with
  | nil =>
    intro s0 acc s2 out h
    unfold apply_themes_loop at h
    simp at h
    rw [h.1]
    exact ⟨rfl, rfl, [], by simp⟩
  | cons t rest ih =>
    intro s0 acc s2 out h
    unfold apply_themes_loop at h
    by_cases hobj : t.isObj = true
    · rw [if_pos hobj] at h
      cases hex : pyStrOrEmptyStrip (t.lookup "theme") with
      | error m => rw [hex] at h; exact absurd h (by simp)
      | ok tw =>
        rw [hex] at h
        simp only [] at h
        by_cases htw : tw = ""
        · rw [if_pos htw] at h
          exact ih s0 acc s2 out h
        · rw [if_neg htw] at h
          cases hfind : s0.words.find? (fun w => w.word = tw) with
          | some w =>
            rw [hfind] at h
            simp only [] at h
            rw [create_next_version_eq] at h
            simp only [] at h
            obtain ⟨hw, ht, nv, hv⟩ := ih _ _ _ _ h
            refine ⟨?_, ?_, ?_⟩
            · rw [hw, (insert_orbit_proj _ _ _).2.2.2.2.1, (insert_edge_proj _ _ _).2.2.2.2.1]
            · rw [ht, (insert_orbit_proj _ _ _).2.2.2.1, (insert_edge_proj _ _ _).2.2.2.1]
            · refine ⟨⟨s0.nextVersionId, w.id, next_version_num s0 w.id⟩ :: nv, ?_⟩
              rw [hv, (insert_orbit_proj _ _ _).2.1, (insert_edge_proj _ _ _).2.1]
              simp
          | none =>
            rw [hfind] at h
            simp only [insert_lang_word] at h
            rw [ensure_word_has_v1_eq] at h
            cases hl : Store.latestVersionRow { s0 with
                words := s0.words ++ [⟨s0.nextWordId, tw⟩],
                nextWordId := s0.nextWordId + 1 } s0.nextWordId with
            | some v =>
              rw [hl] at h
              simp only [] at h
              obtain ⟨hw, ht, nv, hv⟩ := ih _ _ _ _ h
              refine ⟨?_, ?_, ?_⟩
              · rw [hw, (insert_orbit_proj _ _ _).2.2.2.2.1, (insert_edge_proj _ _ _).2.2.2.2.1]
              · rw [ht, (insert_orbit_proj _ _ _).2.2.2.1, (insert_edge_proj _ _ _).2.2.2.1]
              · refine ⟨nv, ?_⟩
                rw [hv, (insert_orbit_proj _ _ _).2.1, (insert_edge_proj _ _ _).2.1]
            | none =>
              rw [hl] at h
              simp only [] at h
              obtain ⟨hw, ht, nv, hv⟩ := ih _ _ _ _ h
              refine ⟨?_, ?_, ?_⟩
              · rw [hw, (insert_orbit_proj _ _ _).2.2.2.2.1, (insert_edge_proj _ _ _).2.2.2.2.1]
              · rw [ht, (insert_orbit_proj _ _ _).2.2.2.1, (insert_edge_proj _ _ _).2.2.2.1]
              · refine ⟨⟨s0.nextVersionId, s0.nextWordId, 1⟩ :: nv, ?_⟩
                rw [hv, (insert_orbit_proj _ _ _).2.1, (insert_edge_proj _ _ _).2.1]
                simp
    · rw [if_neg hobj] at h
      exact ih s0 acc s2 out h

theorem apply_themes_loop_all_skip (pvid : Nat) :
    ∀ (themes : List Json) (s : Store) (acc : List CreatedEntry),
      (∀ t ∈ themes, ¬ t.isObj = true ∨ pyStrOrEmptyStrip (t.lookup "theme") = .ok "") →
      apply_themes_loop pvid s themes acc = .ok (s, acc) := by
  intro themes
  induction themes with
  | nil => intro s acc _; rfl
  | cons t rest ih =>
    intro s acc hall
    unfold apply_themes_loop
    rcases hall t (List.mem_cons_self _ _) with hobj | hempty
    · rw [if_neg hobj]
      exact ih s acc (fun u hu => hall u (List.mem_cons_of_mem _ hu))
    · by_cases hobj : t.isObj = true
      · rw [if_pos hobj, hempty]
        simp only [if_pos rfl]
        exact ih s acc (fun u hu => hall u (List.mem_cons_of_mem _ hu))
      · rw [if_neg hobj]
        exact ih s acc (fun u hu => hall u (List.mem_cons_of_mem _ hu))

-- ---------------------------------------------------------------------
-- C10: apply on a plan with no usable themes
-- ---------------------------------------------------------------------

/-- C10: on a staged `create_lang_words` artifact whose text parses to a
JSON object yielding no usable themes (key missing, value not a list, or
every entry a non-dict or with an absent/falsy/blank `theme`), apply still
mints the subject's next version, deletes the artifact, and returns an
empty `created` list, touching nothing else. -/
theorem apply_plan_without_usable_themes (s : Store) (wid : Nat) (wr : WritingRow)
    (hfind : s.writings.find? (fun w => w.id = wid) = some wr)
    (hkind : wr.prompt_type = "create_lang_words")
    (payload : Json) (hparse : wr.text.loadsOrEmptyObj = some payload)
    (kvs : List (String × Json)) (hobj : payload = .obj kvs)
    (hthemes : ∀ xs, payload.lookup "themes" = some (.arr xs) →
        ∀ t ∈ xs, ¬ t.isObj = true ∨ pyStrOrEmptyStrip (t.lookup "theme") = .ok "") :
    ∃ s', apply_create_lang_words s wid = (s', .applied [])
      ∧ s'.versionNumsOf wr.parent_lang_word_id
          = s.versionNumsOf wr.parent_lang_word_id
            ++ [next_version_num s wr.parent_lang_word_id]
      ∧ s'.words = s.words
      ∧ s'.childWords = s.childWords
      ∧ s'.edges = s.edges
      ∧ s'.writings = s.writings.filter (fun w => ¬ w.id = wid) := by
  have hkind' : ¬ wr.prompt_type ≠ "create_lang_words" := by simp [hkind]
  unfold apply_create_lang_words
  rw [hfind]
  simp only []
  rw [if_neg hkind', create_next_version_eq]
  simp only []
  rw [hparse]
  simp only []
  subst hobj
  simp only [Json.getAttrE]
  cases hlk : (kvs.find? (fun kv => kv.1 = "themes")).map (·.2) with
  | none =>
    exact ⟨_, rfl, (create_next_version_strictly_increases s wr.parent_lang_word_id).1,
      rfl, rfl, rfl, rfl⟩
  | some tj =>
    cases tj with
    | arr xs =>
      simp only []
      rw [apply_themes_loop_all_skip _ xs _ [] (hthemes xs hlk)]
      exact ⟨_, rfl, (create_next_version_strictly_increases s wr.parent_lang_word_id).1,
        rfl, rfl, rfl, rfl⟩
    | null =>
      exact ⟨_, rfl, (create_next_version_strictly_increases s wr.parent_lang_word_id).1,
        rfl, rfl, rfl, rfl⟩
    | bool b =>
      exact ⟨_, rfl, (create_next_version_strictly_increases s wr.parent_lang_word_id).1,
        rfl, rfl, rfl, rfl⟩
    | num n =>
      exact ⟨_, rfl, (create_next_version_strictly_increases s wr.parent_lang_word_id).1,
        rfl, rfl, rfl, rfl⟩
    | str st =>
      exact ⟨_, rfl, (create_next_version_strictly_increases s wr.parent_lang_word_id).1,
        rfl, rfl, rfl, rfl⟩
    | obj kvs2 =>
      exact ⟨_, rfl, (create_next_version_strictly_increases s wr.parent_lang_word_id).1,
        rfl, rfl, rfl, rfl⟩

/-- Witness: C10 on `exC10`, whose staged plan is
`{"themes": [{"theme": ""}, 7]}` — both entries unusable: the subject gains
version 2, the artifact is consumed, nothing is created. -/
theorem apply_plan_without_usable_themes_witness :
    (apply_create_lang_words exC10 1).2 = .applied []
    ∧ exC10_applied.versionNumsOf 1 = [1, 2]
    ∧ exC10_applied.words = exC10.words
    ∧ exC10_applied.writings = [] := by
  obtain ⟨s', h, hv, hw, hc, he, hwr⟩ := apply_plan_without_usable_themes exC10 1
    ⟨1, 1, "create_lang_words",
      .parsed (.obj [("themes", .arr [.obj [("theme", .str "")], .num 7])]), some 1⟩
    rfl rfl
    (.obj [("themes", .arr [.obj [("theme", .str "")], .num 7])]) rfl
    [("themes", .arr [.obj [("theme", .str "")], .num 7])] rfl
    (by
      intro xs hxs
      have hxs' : some (Json.arr [.obj [("theme", .str "")], .num 7])
          = some (Json.arr xs) := hxs
      have hA : [Json.obj [("theme", Json.str "")], Json.num 7] = xs := by
        injection hxs' with h1
        exact Json.arr.inj h1
      subst hA
      intro t ht
      rcases List.mem_cons.mp ht with rfl | ht2
      · right
        rfl
      · rcases List.mem_cons.mp ht2 with rfl | ht3
        · left
          decide
        · simp at ht3)
  have happ : exC10_applied = s' := by
    unfold exC10_applied
    rw [h]
  constructor
  · rw [h]
  refine ⟨?_, ?_, ?_⟩
  · rw [happ, hv]
    decide
  · rw [happ, hw]
  · rw [happ, hwr]
    rfl

-- ---------------------------------------------------------------------
-- C9: apply is atomic at the request level
-- ---------------------------------------------------------------------

/-- C9: `apply_create_lang_words` either aborts — artifact not found, wrong
artifact kind, staged text that does not parse as JSON, or any later
failure — in which case the committed store is exactly the input store (the
request dies before the single `db.commit()`, SQLite rolls back the open
transaction, so no version/concept/edge/phrase mutation persists and the
artifact is retained), or it succeeds, and then one commit makes everything
durable together: the artifact row is gone and the subject's freshly minted
version is present in the same resulting store. -/
theorem apply_plan_atomic (s : Store) (wid : Nat) :
    (s.writings.find? (fun w => w.id = wid) = none →
        apply_create_lang_words s wid = (s, .aborted 404 "Temporary writing not found."))
    ∧ (∀ wr, s.writings.find? (fun w => w.id = wid) = some wr →
        (wr.prompt_type ≠ "create_lang_words" →
          apply_create_lang_words s wid
            = (s, .aborted 400 "Wrong prompt_type for this apply endpoint."))
        ∧ (wr.prompt_type = "create_lang_words" → wr.text = .invalid →
          apply_create_lang_words s wid
            = (s, .aborted 400 "Temporary writing JSON is invalid.")))
    ∧ (∀ c m, (apply_create_lang_words s wid).2 = .aborted c m →
        (apply_create_lang_words s wid).1 = s)
    ∧ (∀ created, (apply_create_lang_words s wid).2 = .applied created →
        ∃ wr rest, s.writings.find? (fun w => w.id = wid) = some wr
          ∧ (apply_create_lang_words s wid).1.writings
              = s.writings.filter (fun w => ¬ w.id = wid)
          ∧ (apply_create_lang_words s wid).1.versions
              = s.versions
                ++ ⟨s.nextVersionId, wr.parent_lang_word_id,
                    next_version_num s wr.parent_lang_word_id⟩ :: rest) := by
  refine ⟨?_, ?_, ?_, ?_⟩
  · intro hnone
    unfold apply_create_lang_words
    rw [hnone]
  · intro wr hfind
    constructor
    · intro hne
      unfold apply_create_lang_words
      rw [hfind]
      simp only []
      rw [if_pos hne]
    · intro hkind htext
      unfold apply_create_lang_words
      rw [hfind]
      simp only []
      rw [if_neg (by simp [hkind]), create_next_version_eq]
      simp only []
      rw [htext]
      rfl
  · intro c m
    unfold apply_create_lang_words
    split
    · intro _; rfl
    · split
      · intro _; rfl
      · simp only []
        rw [create_next_version_eq]
        simp only []
        split
        · intro _; rfl
        · split
          · intro _; rfl
          · split
            · intro _; rfl
            · intro habs
              exact absurd habs (by simp)
  · intro created
    unfold apply_create_lang_words
    split
    · intro habs; exact absurd habs (by simp)
    · rename_i wr hfind
      split
      · intro habs; exact absurd habs (by simp)
      · simp only []
        rw [create_next_version_eq]
        simp only []
        split
        · intro habs; exact absurd habs (by simp)
        · split
          · intro habs; exact absurd habs (by simp)
          · split
            · intro habs; exact absurd habs (by simp)
            · rename_i s2 out heq2
              intro _
              obtain ⟨hwr2, _, nv, hv⟩ := apply_themes_loop_light _ _ _ _ _ _ heq2
              refine ⟨wr, nv, hfind, ?_, ?_⟩
              · show s2.writings.filter (fun w => ¬ w.id = wid)
                  = s.writings.filter (fun w => ¬ w.id = wid)
                rw [hwr2]
              · show s2.versions = _
                rw [hv]
                simp

/-- Witness: C9 on `exC9` (staged text that does not parse: the request
aborts with 400 and the committed store — including the retained artifact —
is exactly `exC9`, although the code had already executed the version
insert before parsing) and on `exC10` (success: one commit both deletes
artifact 1 and adds the subject's new version). -/
theorem apply_plan_atomic_witness :
    apply_create_lang_words exC9 1
      = (exC9, .aborted 400 "Temporary writing JSON is invalid.")
    ∧ ∃ wr rest, exC10.writings.find? (fun w => w.id = 1) = some wr
        ∧ (apply_create_lang_words exC10 1).1.writings
            = exC10.writings.filter (fun w => ¬ w.id = 1)
        ∧ (apply_create_lang_words exC10 1).1.versions
            = exC10.versions ++ ⟨exC10.nextVersionId, wr.parent_lang_word_id,
                next_version_num exC10 wr.parent_lang_word_id⟩ :: rest := by
  constructor
  · exact ((apply_plan_atomic exC9 1).2.1
      ⟨1, 1, "create_lang_words", .invalid, some 1⟩ rfl).2 rfl rfl
  · exact (apply_plan_atomic exC10 1).2.2.2 [] (by rfl)

-- ---------------------------------------------------------------------
-- C5 machinery: statuses across the worker's committed states
-- ---------------------------------------------------------------------

theorem find?_eq_self_of_nodup_ids :
    ∀ {l : List TaskRow}, (l.map (·.id)).Nodup →
      ∀ {t : TaskRow}, t ∈ l → l.find? (fun u => u.id = t.id) = some t := by
  intro l
  induction l with
  | nil => intro _ t ht; simp at ht
  | cons a as ih =>
    intro hn t ht
    rw [List.map_cons, List.nodup_cons] at hn
    rcases List.mem_cons.mp ht with rfl | hmem
    · rw [List.find?_cons_of_pos _ (by simp)]
    · rw [List.find?_cons_of_neg, ih hn.2 hmem]
      simp only [decide_eq_true_eq]
      intro heq
      exact hn.1 (heq ▸ List.mem_map_of_mem (·.id) hmem)

theorem status_in_congr {s s' : Store} (h : s'.tasks = s.tasks) (x : Nat) :
    status_in s' x = status_in s x := by
  unfold status_in
  rw [h]

theorem insert_child_sentences_tasks (sid : Int) (fb : List Int) :
    ∀ (items : List CSItem) (s : Store),
      (insert_child_sentences sid fb s items).tasks = s.tasks := by
  intro items
  induction items with
  | nil => intro s; rfl
  | cons item rest ih =>
    intro s
    unfold insert_child_sentences
    simp only []
    split
    · exact ih s
    · exact ih _

theorem insert_child_words_dedup_tasks (vid : Nat) :
    ∀ (ps : List Json) (seen : List String) (s : Store),
      (insert_child_words_dedup vid s ps seen).tasks = s.tasks := by
  intro ps
  induction ps with
  | nil => intro seen s; rfl
  | cons p rest ih =>
    intro seen s
    unfold insert_child_words_dedup
    simp only []
    split
    · exact ih seen s
    · exact ih _ _

theorem ensure_word_has_v1_tasks (s : Store) (wid : Nat) :
    (ensure_word_has_v1 s wid).1.tasks = s.tasks := by
  rw [ensure_word_has_v1_eq]
  cases s.latestVersionRow wid <;> rfl

theorem claim_next_some_facts (s : Store) (s1 : Store) (t : TaskRow)
    (h : claim_next s = some (s1, t)) :
    t ∈ s.tasks ∧ t.status = .queued
    ∧ s1 = update_task s t.id (fun u => { u with status := .running }) := by
  rw [claim_next_eq] at h
  cases hp : pickMinBy (·.id) (s.tasks.filter (fun u => u.status = .queued)) with
  | none => rw [hp] at h; exact absurd h (by simp)
  | some t0 =>
    rw [hp] at h
    have ht0 : t0 = t := by simpa using congrArg (fun x => x.map Prod.snd) h
    subst ht0
    have hs1 : s1 = update_task s t0.id (fun u => { u with status := .running }) := by
      have := congrArg (fun x => x.map Prod.fst) h
      simp at this
      exact this.symm
    have hmem := pickMinBy_mem _ hp
    obtain ⟨hm, hq⟩ := List.mem_filter.mp hmem
    exact ⟨hm, by simpa using hq, hs1⟩

theorem status_in_update_via (sX s : Store) (htk : sX.tasks = s.tasks) (tid0 : Nat)
    (f : TaskRow → TaskRow) (st : TaskStatus) (hid : ∀ u, (f u).id = u.id)
    (hst : ∀ u, (f u).status = st) (tid : Nat) :
    status_in (update_task sX tid0 f) tid =
      if tid = tid0 then (status_in s tid).map (fun _ => st) else status_in s tid := by
  rw [status_in_update sX tid0 f st hid hst tid]
  by_cases htid : tid = tid0
  · rw [if_pos htid, if_pos htid, htid, status_in_congr htk]
  · rw [if_neg htid, if_neg htid, status_in_congr htk]

theorem dispatch_try_status (s : Store) (t : TaskRow) (o : Oracle) (s2 : Store)
    (h : dispatch_try s t o = .ok s2) (tid : Nat) :
    status_in s2 tid = if tid = t.id
      then (status_in s tid).map (fun _ => TaskStatus.done)
      else status_in s tid := by
  unfold dispatch_try at h
  repeat' (split at h)
  all_goals try (exact Except.noConfusion h)
  all_goals try (simp only [] at h)
  all_goals repeat' (split at h)
  all_goals try (exact Except.noConfusion h)
  all_goals have h2 := Except.ok.inj h
  all_goals subst h2
  all_goals refine status_in_update_via _ s ?_ t.id _ .done ?_ ?_ tid
  any_goals exact fun u => rfl
  all_goals
    first
      | rfl
      | (rw [insert_child_sentences_tasks])
      | (rename_i sE vE hE
         rw [insert_child_words_dedup_tasks]
         have h3 : sE = (ensure_word_has_v1 s t.parent_lang_word_id).1 := by
           rw [hE]
         rw [h3, ensure_word_has_v1_tasks])

/-- C5 (amended): the per-invocation status discipline of
`_process_one_task` over its committed states.  Every adjacent commit pair
changes each task's status only along `queued→running` (the claim),
`running→done`, `running→error`, or `done→error`; only the claimed task's
status ever changes; and a task that is already terminal (`done` or
`error`) when the invocation starts is never touched (so nothing requeues,
re-claims, or re-marks a previously terminal task).  The original claim's
"no further transitions out of a terminal state" fails only in one spot:
the `done→error` re-mark of the just-completed task by the same
invocation's `except` handler when `log_llm_usage` raises after the `done`
commit (see the counterexample). -/
theorem worker_status_machine (s : Store) (o : Oracle)
    (hn : (s.tasks.map (·.id)).Nodup) :
    List.Chain' (fun a b => ∀ tid, status_step_ok (status_in a tid) (status_in b tid))
      (s :: process_one_task s o)
    ∧ (∀ b ∈ process_one_task s o, ∀ tid,
        status_in b tid ≠ status_in s tid →
        ∃ p, claim_next s = some p ∧ tid = p.2.id)
    ∧ (∀ b ∈ process_one_task s o, ∀ tid, status_in s tid = some .error →
        status_in b tid = some .error)
    ∧ (∀ b ∈ process_one_task s o, ∀ tid, status_in s tid = some .done →
        status_in b tid = some .done) := by
  cases hclaim : claim_next s with
  | none =>
    unfold process_one_task
    rw [hclaim]
    exact ⟨List.chain'_singleton s, by simp, by simp, by simp⟩
  | some p =>
    obtain ⟨s1, t⟩ := p
    obtain ⟨htmem, htq, hs1⟩ := claim_next_some_facts s s1 t hclaim
    have hfind : s.tasks.find? (fun u => u.id = t.id) = some t :=
      find?_eq_self_of_nodup_ids hn htmem
    have hst : status_in s t.id = some .queued := by
      unfold status_in
      rw [hfind]
      simp [htq]
    have h1 : ∀ tid, status_in s1 tid
        = if tid = t.id then some .running else status_in s tid := by
      intro tid
      rw [hs1, status_in_update_via s s rfl t.id
        (fun u => { u with status := TaskStatus.running }) .running
        (fun u => rfl) (fun u => rfl) tid]
      by_cases htid : tid = t.id
      · rw [if_pos htid, if_pos htid, htid, hst]
        rfl
      · rw [if_neg htid, if_neg htid]
    have hstep1 : ∀ tid, status_step_ok (status_in s tid) (status_in s1 tid) := by
      intro tid
      rw [h1]
      by_cases htid : tid = t.id
      · rw [if_pos htid, htid, hst]
        exact Or.inr (Or.inl ⟨rfl, rfl⟩)
      · rw [if_neg htid]
        exact Or.inl rfl
    have hrest : process_one_task s o = s1 :: run_claimed s1 t o := by
      unfold process_one_task
      rw [hclaim]
    cases hdt : dispatch_try s1 t o with
    | error m =>
      have hrc : run_claimed s1 t o = [mark_task_error s1 t.id m] := by
        unfold run_claimed
        rw [hdt]
      have h2 : ∀ tid, status_in (mark_task_error s1 t.id m) tid
          = if tid = t.id then some .error else status_in s tid := by
        intro tid
        unfold mark_task_error
        rw [status_in_update_via s1 s1 rfl t.id
          (fun u => { u with status := TaskStatus.error, error := some m }) .error
          (fun u => rfl) (fun u => rfl) tid]
        by_cases htid : tid = t.id
        · rw [if_pos htid, if_pos htid, h1, if_pos htid]
          rfl
        · rw [if_neg htid, if_neg htid, h1, if_neg htid]
      rw [hrest, hrc]
      refine ⟨?_, ?_, ?_, ?_⟩
      · refine List.chain'_cons.mpr ⟨hstep1, List.chain'_cons.mpr ⟨?_, List.chain'_singleton _⟩⟩
        intro tid
        rw [h1, h2]
        by_cases htid : tid = t.id
        · rw [if_pos htid, if_pos htid]
          exact Or.inr (Or.inr (Or.inr (Or.inl ⟨rfl, rfl⟩)))
        · rw [if_neg htid, if_neg htid]
          exact Or.inl rfl
      · intro b hb tid hne
        refine ⟨(s1, t), rfl, ?_⟩
        by_contra htid
        rcases List.mem_cons.mp hb with rfl | hb2
        · exact hne (by rw [h1, if_neg htid])
        · simp at hb2
          subst hb2
          exact hne (by rw [h2, if_neg htid])
      · intro b hb tid herr
        have htid : ¬ tid = t.id := by
          intro htid
          rw [htid, hst] at herr
          simp at herr
        rcases List.mem_cons.mp hb with rfl | hb2
        · rw [h1, if_neg htid]
          exact herr
        · simp at hb2
          subst hb2
          rw [h2, if_neg htid]
          exact herr
      · intro b hb tid hdone
        have htid : ¬ tid = t.id := by
          intro htid
          rw [htid, hst] at hdone
          simp at hdone
        rcases List.mem_cons.mp hb with rfl | hb2
        · rw [h1, if_neg htid]
          exact hdone
        · simp at hb2
          subst hb2
          rw [h2, if_neg htid]
          exact hdone
    | ok s2 =>
      have h2 : ∀ tid, status_in s2 tid
          = if tid = t.id then some .done else status_in s tid := by
        intro tid
        rw [dispatch_try_status s1 t o s2 hdt tid]
        by_cases htid : tid = t.id
        · rw [if_pos htid, if_pos htid, h1, if_pos htid]
          rfl
        · rw [if_neg htid, if_neg htid, h1, if_neg htid]
      have hstep2 : ∀ tid, status_step_ok (status_in s1 tid) (status_in s2 tid) := by
        intro tid
        rw [h1, h2]
        by_cases htid : tid = t.id
        · rw [if_pos htid, if_pos htid]
          exact Or.inr (Or.inr (Or.inl ⟨rfl, rfl⟩))
        · rw [if_neg htid, if_neg htid]
          exact Or.inl rfl
      cases hlog : o.log_err with
      | none =>
        have hrc : run_claimed s1 t o = [s2] := by
          unfold run_claimed
          rw [hdt, hlog]
        rw [hrest, hrc]
        refine ⟨?_, ?_, ?_, ?_⟩
        · exact List.chain'_cons.mpr ⟨hstep1,
            List.chain'_cons.mpr ⟨hstep2, List.chain'_singleton _⟩⟩
        · intro b hb tid hne
          refine ⟨(s1, t), rfl, ?_⟩
          by_contra htid
          rcases List.mem_cons.mp hb with rfl | hb2
          · exact hne (by rw [h1, if_neg htid])
          · simp at hb2
            subst hb2
            exact hne (by rw [h2, if_neg htid])
        · intro b hb tid herr
          have htid : ¬ tid = t.id := by
            intro htid
            rw [htid, hst] at herr
            simp at herr
          rcases List.mem_cons.mp hb with rfl | hb2
          · rw [h1, if_neg htid]
            exact herr
          · simp at hb2
            subst hb2
            rw [h2, if_neg htid]
            exact herr
        · intro b hb tid hdone
          have htid : ¬ tid = t.id := by
            intro htid
            rw [htid, hst] at hdone
            simp at hdone
          rcases List.mem_cons.mp hb with rfl | hb2
          · rw [h1, if_neg htid]
            exact hdone
          · simp at hb2
            subst hb2
            rw [h2, if_neg htid]
            exact hdone
      | some m =>
        have hrc : run_claimed s1 t o = [s2, mark_task_error s2 t.id m] := by
          unfold run_claimed
          rw [hdt, hlog]
        have h3 : ∀ tid, status_in (mark_task_error s2 t.id m) tid
            = if tid = t.id then some .error else status_in s tid := by
          intro tid
          unfold mark_task_error
          rw [status_in_update_via s2 s2 rfl t.id
            (fun u => { u with status := TaskStatus.error, error := some m }) .error
            (fun u => rfl) (fun u => rfl) tid]
          by_cases htid : tid = t.id
          · rw [if_pos htid, if_pos htid, h2, if_pos htid]
            rfl
          · rw [if_neg htid, if_neg htid, h2, if_neg htid]
        rw [hrest, hrc]
        refine ⟨?_, ?_, ?_, ?_⟩
        · refine List.chain'_cons.mpr ⟨hstep1, List.chain'_cons.mpr ⟨hstep2,
            List.chain'_cons.mpr ⟨?_, List.chain'_singleton _⟩⟩⟩
          intro tid
          rw [h2, h3]
          by_cases htid : tid = t.id
          · rw [if_pos htid, if_pos htid]
            exact Or.inr (Or.inr (Or.inr (Or.inr ⟨rfl, rfl⟩)))
          · rw [if_neg htid, if_neg htid]
            exact Or.inl rfl
        · intro b hb tid hne
          refine ⟨(s1, t), rfl, ?_⟩
          by_contra htid
          rcases List.mem_cons.mp hb with rfl | hb2
          · exact hne (by rw [h1, if_neg htid])
          · rcases List.mem_cons.mp hb2 with rfl | hb3
            · exact hne (by rw [h2, if_neg htid])
            · simp at hb3
              subst hb3
              exact hne (by rw [h3, if_neg htid])
        · intro b hb tid herr
          have htid : ¬ tid = t.id := by
            intro htid
            rw [htid, hst] at herr
            simp at herr
          rcases List.mem_cons.mp hb with rfl | hb2
          · rw [h1, if_neg htid]
            exact herr
          · rcases List.mem_cons.mp hb2 with rfl | hb3
            · rw [h2, if_neg htid]
              exact herr
            · simp at hb3
              subst hb3
              rw [h3, if_neg htid]
              exact herr
        · intro b hb tid hdone
          have htid : ¬ tid = t.id := by
            intro htid
            rw [htid, hst] at hdone
            simp at hdone
          rcases List.mem_cons.mp hb with rfl | hb2
          · rw [h1, if_neg htid]
            exact hdone
          · rcases List.mem_cons.mp hb2 with rfl | hb3
            · rw [h2, if_neg htid]
              exact hdone
            · simp at hb3
              subst hb3
              rw [h3, if_neg htid]
              exact hdone

/-- C5 counterexample to the original claim's "and no further transitions
out of a terminal state": with a queued `create_lang_words` task whose plan
parses to an empty theme list, the worker commits the task as `done`
(second committed state) and then, because `log_llm_usage` raises (the
usage database's tables are never created by this codebase), the `except`
handler re-marks the very same task `error` (third committed state) - a
transition out of the terminal `done` state. -/
theorem task_done_then_error_flip :
    (process_one_task exC5 exO5).length = 3
    ∧ status_in ((process_one_task exC5 exO5).getD 1 emptyStore) 1 = some .done
    ∧ status_in ((process_one_task exC5 exO5).getD 2 emptyStore) 1 = some .error := by
  decide

theorem worker_status_machine_witness :
    (exC5.tasks.map (fun t => t.id)).Nodup
    ∧ (List.Chain' (fun a b => ∀ tid, status_step_ok (status_in a tid) (status_in b tid))
         (exC5 :: process_one_task exC5 exO5)
       ∧ (∀ b ∈ process_one_task exC5 exO5, ∀ tid,
           status_in b tid ≠ status_in exC5 tid →
           ∃ p, claim_next exC5 = some p ∧ tid = p.2.id)
       ∧ (∀ b ∈ process_one_task exC5 exO5, ∀ tid,
           status_in exC5 tid = some .error → status_in b tid = some .error)
       ∧ (∀ b ∈ process_one_task exC5 exO5, ∀ tid,
           status_in exC5 tid = some .done → status_in b tid = some .done)) :=
  ⟨by decide, worker_status_machine exC5 exO5 (by decide)⟩

-- ---------------------------------------------------------------------
-- C1 machinery: the theme loop of the apply endpoint
-- ---------------------------------------------------------------------

theorem LoopExt_refl (s : Store) : LoopExt s s := by
  refine ⟨⟨[], by simp, by simp⟩, ⟨[], by simp, by simp⟩, ⟨[], by simp, by simp⟩,
    le_refl _, le_refl _, rfl, rfl, ?_⟩
  intro w hw hnw
  exact absurd hw hnw

theorem LoopExt_trans {s0 s1 s2 : Store} (h01 : LoopExt s0 s1) (h12 : LoopExt s1 s2) :
    LoopExt s0 s2 := by
  obtain ⟨nw1, hw1, hwb1⟩ := h01.words_ext
  obtain ⟨nw2, hw2, hwb2⟩ := h12.words_ext
  obtain ⟨nv1, hv1, hvb1⟩ := h01.versions_ext
  obtain ⟨nv2, hv2, hvb2⟩ := h12.versions_ext
  obtain ⟨nc1, hc1, hcb1⟩ := h01.childWords_ext
  obtain ⟨nc2, hc2, hcb2⟩ := h12.childWords_ext
  refine ⟨⟨nw1 ++ nw2, by rw [hw2, hw1, List.append_assoc], ?_⟩,
    ⟨nv1 ++ nv2, by rw [hv2, hv1, List.append_assoc], ?_⟩,
    ⟨nc1 ++ nc2, by rw [hc2, hc1, List.append_assoc], ?_⟩,
    le_trans h01.wordCtr_le h12.wordCtr_le,
    le_trans h01.verCtr_le h12.verCtr_le,
    by rw [h12.tasks_eq, h01.tasks_eq],
    by rw [h12.writings_eq, h01.writings_eq], ?_⟩
  · intro w hw
    rcases List.mem_append.mp hw with h | h
    · exact hwb1 w h
    · exact le_trans h01.wordCtr_le (hwb2 w h)
  · intro v hv
    rcases List.mem_append.mp hv with h | h
    · exact hvb1 v h
    · exact le_trans h01.verCtr_le (hvb2 v h)
  · intro c hc
    rcases List.mem_append.mp hc with h | h
    · exact hcb1 c h
    · exact le_trans h01.verCtr_le (hcb2 c h)
  · intro w hw hnw
    by_cases hw1m : w ∈ s1.words
    · obtain ⟨v, hvmem, hvw, hv1v⟩ := h01.fresh_words_have_v1 w hw1m hnw
      exact ⟨v, by rw [hv2]; exact List.mem_append_left _ hvmem, hvw, hv1v⟩
    · exact h12.fresh_words_have_v1 w hw hw1m

theorem LoopExt_build {s0 s4 : Store} {nw : List LangWordRow}
    {nv : List VersionRow} {nc : List ChildWordRow}
    (hw : s4.words = s0.words ++ nw) (hv : s4.versions = s0.versions ++ nv)
    (hc : s4.childWords = s0.childWords ++ nc)
    (hwb : ∀ w ∈ nw, s0.nextWordId ≤ w.id)
    (hvb : ∀ v ∈ nv, s0.nextVersionId ≤ v.id)
    (hcb : ∀ c ∈ nc, s0.nextVersionId ≤ c.lang_word_version_id)
    (hwc : s0.nextWordId ≤ s4.nextWordId) (hvc : s0.nextVersionId ≤ s4.nextVersionId)
    (ht : s4.tasks = s0.tasks) (hwr : s4.writings = s0.writings)
    (hfresh : ∀ w ∈ nw, ∃ v ∈ nv, v.lang_word_id = w.id ∧ v.version = 1) :
    LoopExt s0 s4 := by
  refine ⟨⟨nw, hw, hwb⟩, ⟨nv, hv, hvb⟩, ⟨nc, hc, hcb⟩, hwc, hvc, ht, hwr, ?_⟩
  intro w hwmem hwnot
  have hmem : w ∈ nw := by
    rw [hw] at hwmem
    rcases List.mem_append.mp hwmem with h | h
    · exact absurd h hwnot
    · exact h
  obtain ⟨v, hvmem, hvl, hvv⟩ := hfresh w hmem
  exact ⟨v, by rw [hv]; exact List.mem_append_right _ hvmem, hvl, hvv⟩

theorem filter_vid_nil_of_lt {l : List ChildWordRow} {vid : Nat}
    (h : ∀ c ∈ l, c.lang_word_version_id < vid) :
    l.filter (fun c => c.lang_word_version_id = vid) = [] := by
  rw [List.filter_eq_nil_iff]
  intro c hc
  have := h c hc
  simp
  omega

theorem filter_vid_nil_of_ge {l : List ChildWordRow} {vid b : Nat}
    (hb : vid < b) (h : ∀ c ∈ l, b ≤ c.lang_word_version_id) :
    l.filter (fun c => c.lang_word_version_id = vid) = [] := by
  rw [List.filter_eq_nil_iff]
  intro c hc
  have := h c hc
  simp
  omega

theorem filter_vid_self {l : List ChildWordRow} {vid : Nat}
    (h : ∀ c ∈ l, c.lang_word_version_id = vid) :
    l.filter (fun c => c.lang_word_version_id = vid) = l := by
  rw [List.filter_eq_self]
  intro c hc
  simp [h c hc]

theorem phrasesOf_step {s0 s4 s2 : Store} {vid : Nat} {rows : List ChildWordRow}
    (hc : s4.childWords = s0.childWords ++ rows)
    (hrows : ∀ r ∈ rows, r.lang_word_version_id = vid)
    (hold : ∀ c ∈ s0.childWords, c.lang_word_version_id < vid)
    (hext : LoopExt s4 s2) (hvid : vid < s4.nextVersionId) :
    s2.phrasesOf vid = rows := by
  obtain ⟨nc, hnc, hncb⟩ := hext.childWords_ext
  unfold Store.phrasesOf
  rw [hnc, hc, List.filter_append, List.filter_append]
  rw [filter_vid_nil_of_lt hold, filter_vid_self hrows, filter_vid_nil_of_ge hvid hncb]
  simp

theorem phrasesOf_frame {s0 s2 : Store} (hext : LoopExt s0 s2) {vid : Nat}
    (hvid : vid < s0.nextVersionId) :
    s2.phrasesOf vid = s0.phrasesOf vid := by
  obtain ⟨nc, hnc, hncb⟩ := hext.childWords_ext
  unfold Store.phrasesOf
  rw [hnc, List.filter_append, filter_vid_nil_of_ge hvid hncb]
  simp

theorem applyBounds_ext {s0 s4 : Store} {nw : List LangWordRow}
    {nv : List VersionRow} {nc : List ChildWordRow}
    (hw : s4.words = s0.words ++ nw) (hv : s4.versions = s0.versions ++ nv)
    (hc : s4.childWords = s0.childWords ++ nc)
    (hwid : ∀ w ∈ nw, w.id < s4.nextWordId)
    (hvid : ∀ v ∈ nv, v.id < s4.nextVersionId)
    (hvw : ∀ v ∈ nv, v.lang_word_id < s4.nextWordId)
    (hcv : ∀ c ∈ nc, c.lang_word_version_id < s4.nextVersionId)
    (hwc : s0.nextWordId ≤ s4.nextWordId) (hvc : s0.nextVersionId ≤ s4.nextVersionId)
    (hb : Store.applyBounds s0) : Store.applyBounds s4 := by
  obtain ⟨hb1, hb2, hb3, hb4⟩ := hb
  refine ⟨?_, ?_, ?_, ?_⟩
  · intro w hwmem
    rw [hw] at hwmem
    rcases List.mem_append.mp hwmem with h | h
    · have := hb1 w h
      omega
    · exact hwid w h
  · intro v hvmem
    rw [hv] at hvmem
    rcases List.mem_append.mp hvmem with h | h
    · have := hb2 v h
      omega
    · exact hvid v h
  · intro v hvmem
    rw [hv] at hvmem
    rcases List.mem_append.mp hvmem with h | h
    · have := hb3 v h
      omega
    · exact hvw v h
  · intro c hcmem
    rw [hc] at hcmem
    rcases List.mem_append.mp hcmem with h | h
    · have := hb4 c h
      omega
    · exact hcv c h

theorem EntryOK_mono {s0 s4 sF : Store} {e : CreatedEntry} {nw : List LangWordRow}
    (h : EntryOK s4 sF e)
    (hw : s4.words = s0.words ++ nw)
    (hvsub : ∀ v ∈ s0.versions, v ∈ s4.versions)
    (hwc : s0.nextWordId ≤ s4.nextWordId) (hvc : s0.nextVersionId ≤ s4.nextVersionId)
    (hnw : ∀ wrow ∈ nw, s0.nextWordId ≤ wrow.id
      ∧ ∃ v ∈ sF.versions, v.lang_word_id = wrow.id ∧ v.version = 1)
    (hwsub : ∀ w ∈ s4.words, w ∈ sF.words) :
    EntryOK s0 sF e := by
  obtain ⟨h1, h2, h3⟩ := h
  refine ⟨le_trans hvc h1, ?_, ?_⟩
  · intro w hfw
    have hfw4 : s4.words.find? (fun x => x.word = e.word) = some w := by
      rw [hw]
      exact find?_append_left _ _ hfw
    obtain ⟨hid, v, hvmem, hvid, hvlang, hvmax⟩ := h2 w hfw4
    exact ⟨hid, v, hvmem, hvid, hvlang, fun v0 hv0 hl => hvmax v0 (hvsub v0 hv0) hl⟩
  · intro hfw
    have hfw4 : s4.words.find? (fun x => x.word = e.word)
        = nw.find? (fun x => x.word = e.word) := by
      rw [hw]
      exact find?_append_none _ _ hfw
    cases hnwf : nw.find? (fun x => x.word = e.word) with
    | none =>
      obtain ⟨hle, hrow, hv⟩ := h3 (by rw [hfw4, hnwf])
      exact ⟨le_trans hwc hle, hrow, hv⟩
    | some wrow =>
      obtain ⟨hid, v, hvmem, hvid, hvlang, hvmax⟩ := h2 wrow (by rw [hfw4, hnwf])
      have hwrow := hnw wrow (List.mem_of_find?_eq_some hnwf)
      have hword : wrow.word = e.word := by
        have := List.find?_some hnwf
        simpa using this
      obtain ⟨v1, hv1mem, hv1lang, hv1ver⟩ := hwrow.2
      refine ⟨by rw [hid]; exact hwrow.1, ⟨wrow, ?_, hid.symm, hword⟩,
        ⟨v1, hv1mem, ?_, hv1ver⟩⟩
      · exact hwsub wrow
          (by rw [hw]; exact List.mem_append_right _ (List.mem_of_find?_eq_some hnwf))
      · rw [hid]
        exact hv1lang

theorem loop_cons_existing (pvid : Nat) (t : Json) (rest : List Json) (s0 : Store)
    (acc : List CreatedEntry) (s2 : Store) (out : List CreatedEntry)
    (tw : String) (w : LangWordRow)
    (hobj : t.isObj = true) (hex : pyStrOrEmptyStrip (t.lookup "theme") = .ok tw)
    (htw : ¬ tw = "") (hfind : s0.words.find? (fun x => x.word = tw) = some w)
    (h : apply_themes_loop pvid s0 (t :: rest) acc = .ok (s2, out)) :
    ∃ s4 rows,
      apply_themes_loop pvid s4 rest (acc ++ [⟨w.id, tw, s0.nextVersionId⟩]) = .ok (s2, out)
      ∧ s4.words = s0.words
      ∧ s4.versions = s0.versions ++ [⟨s0.nextVersionId, w.id, next_version_num s0 w.id⟩]
      ∧ s4.childWords = s0.childWords ++ rows
      ∧ rows.map (·.word)
          = ((theme_orbit t).map (fun p => pyStrip (Json.pyStr p))).filter (fun ph => ¬ ph = "")
      ∧ (∀ r ∈ rows, r.lang_word_version_id = s0.nextVersionId)
      ∧ s4.tasks = s0.tasks ∧ s4.writings = s0.writings
      ∧ s4.nextWordId = s0.nextWordId ∧ s4.nextVersionId = s0.nextVersionId + 1 := by
  unfold apply_themes_loop at h
  rw [if_pos hobj, hex] at h
  simp only [] at h
  rw [if_neg htw, hfind] at h
  simp only [] at h
  rw [create_next_version_eq] at h
  simp only [] at h
  have hops := insert_orbit_proj s0.nextVersionId (theme_orbit t)
    (insert_edge_or_ignore { s0 with
        versions := s0.versions ++ [⟨s0.nextVersionId, w.id, next_version_num s0 w.id⟩],
        nextVersionId := s0.nextVersionId + 1 } pvid w.id)
  have heps := insert_edge_proj { s0 with
      versions := s0.versions ++ [⟨s0.nextVersionId, w.id, next_version_num s0 w.id⟩],
      nextVersionId := s0.nextVersionId + 1 } pvid w.id
  obtain ⟨rows, hc, hmap, hvidb⟩ := insert_orbit_childWords s0.nextVersionId (theme_orbit t)
    (insert_edge_or_ignore { s0 with
        versions := s0.versions ++ [⟨s0.nextVersionId, w.id, next_version_num s0 w.id⟩],
        nextVersionId := s0.nextVersionId + 1 } pvid w.id)
  refine ⟨_, rows, h, ?_, ?_, ?_, hmap, hvidb, ?_, ?_, ?_, ?_⟩
  · exact hops.1.trans heps.1
  · exact (hops.2.1).trans heps.2.1
  · exact hc.trans (congrArg (fun l => l ++ rows) heps.2.2.1)
  · exact (hops.2.2.2.1).trans heps.2.2.2.1
  · exact (hops.2.2.2.2.1).trans heps.2.2.2.2.1
  · exact (hops.2.2.2.2.2.1).trans heps.2.2.2.2.2.1
  · exact (hops.2.2.2.2.2.2).trans heps.2.2.2.2.2.2

theorem loop_cons_fresh (pvid : Nat) (t : Json) (rest : List Json) (s0 : Store)
    (acc : List CreatedEntry) (s2 : Store) (out : List CreatedEntry) (tw : String)
    (hobj : t.isObj = true) (hex : pyStrOrEmptyStrip (t.lookup "theme") = .ok tw)
    (htw : ¬ tw = "") (hfind : s0.words.find? (fun x => x.word = tw) = none)
    (hb3 : ∀ v ∈ s0.versions, v.lang_word_id < s0.nextWordId)
    (h : apply_themes_loop pvid s0 (t :: rest) acc = .ok (s2, out)) :
    ∃ s4 rows,
      apply_themes_loop pvid s4 rest (acc ++ [⟨s0.nextWordId, tw, s0.nextVersionId⟩])
        = .ok (s2, out)
      ∧ s4.words = s0.words ++ [⟨s0.nextWordId, tw⟩]
      ∧ s4.versions = s0.versions ++ [⟨s0.nextVersionId, s0.nextWordId, 1⟩]
      ∧ s4.childWords = s0.childWords ++ rows
      ∧ rows.map (·.word)
          = ((theme_orbit t).map (fun p => pyStrip (Json.pyStr p))).filter (fun ph => ¬ ph = "")
      ∧ (∀ r ∈ rows, r.lang_word_version_id = s0.nextVersionId)
      ∧ s4.tasks = s0.tasks ∧ s4.writings = s0.writings
      ∧ s4.nextWordId = s0.nextWordId + 1 ∧ s4.nextVersionId = s0.nextVersionId + 1 := by
  unfold apply_themes_loop at h
  rw [if_pos hobj, hex] at h
  simp only [] at h
  rw [if_neg htw, hfind] at h
  simp only [insert_lang_word] at h
  rw [ensure_word_has_v1_eq] at h
  cases hl : Store.latestVersionRow { s0 with
      words := s0.words ++ [⟨s0.nextWordId, tw⟩],
      nextWordId := s0.nextWordId + 1 } s0.nextWordId with
  | some v =>
    exfalso
    have hv' : v ∈ s0.versions ∧ v.lang_word_id = s0.nextWordId := latestVersionRow_mem hl
    have hlt := hb3 v hv'.1
    have heq := hv'.2
    omega
  | none =>
    rw [hl] at h
    simp only [] at h
    have hops := insert_orbit_proj s0.nextVersionId (theme_orbit t)
      (insert_edge_or_ignore { s0 with
          words := s0.words ++ [⟨s0.nextWordId, tw⟩], nextWordId := s0.nextWordId + 1,
          versions := s0.versions ++ [⟨s0.nextVersionId, s0.nextWordId, 1⟩],
          nextVersionId := s0.nextVersionId + 1 } pvid s0.nextWordId)
    have heps := insert_edge_proj { s0 with
        words := s0.words ++ [⟨s0.nextWordId, tw⟩], nextWordId := s0.nextWordId + 1,
        versions := s0.versions ++ [⟨s0.nextVersionId, s0.nextWordId, 1⟩],
        nextVersionId := s0.nextVersionId + 1 } pvid s0.nextWordId
    obtain ⟨rows, hc, hmap, hvidb⟩ := insert_orbit_childWords s0.nextVersionId (theme_orbit t)
      (insert_edge_or_ignore { s0 with
          words := s0.words ++ [⟨s0.nextWordId, tw⟩], nextWordId := s0.nextWordId + 1,
          versions := s0.versions ++ [⟨s0.nextVersionId, s0.nextWordId, 1⟩],
          nextVersionId := s0.nextVersionId + 1 } pvid s0.nextWordId)
    refine ⟨_, rows, h, ?_, ?_, ?_, hmap, hvidb, ?_, ?_, ?_, ?_⟩
    · exact hops.1.trans heps.1
    · exact (hops.2.1).trans heps.2.1
    · exact hc.trans (congrArg (fun l => l ++ rows) heps.2.2.1)
    · exact (hops.2.2.2.1).trans heps.2.2.2.1
    · exact (hops.2.2.2.2.1).trans heps.2.2.2.2.1
    · exact (hops.2.2.2.2.2.1).trans heps.2.2.2.2.2.1
    · exact (hops.2.2.2.2.2.2).trans heps.2.2.2.2.2.2

theorem EntryOK_of_existing {s0 s4 s2 : Store} {tw : String} {w : LangWordRow}
    {e : CreatedEntry}
    (hfind : s0.words.find? (fun x => x.word = tw) = some w)
    (hV : s4.versions = s0.versions ++ [⟨s0.nextVersionId, w.id, next_version_num s0 w.id⟩])
    (hLE : LoopExt s4 s2)
    (he1 : e.child_lang_word_id = w.id) (he2 : e.word = tw)
    (he3 : e.child_version_id = s0.nextVersionId) :
    EntryOK s0 s2 e := by
  obtain ⟨nv2, hv2, _⟩ := hLE.versions_ext
  unfold EntryOK
  rw [he1, he2, he3]
  refine ⟨le_refl _, ?_, ?_⟩
  · intro w' hfw'
    have hww : w = w' := Option.some.inj (hfind.symm.trans hfw')
    subst hww
    refine ⟨rfl, ⟨⟨s0.nextVersionId, w.id, next_version_num s0 w.id⟩, ?_, rfl, rfl, ?_⟩⟩
    · rw [hv2, hV]
      exact List.mem_append_left _ (List.mem_append_right _ (by simp))
    · intro v0 hv0 hl0
      exact next_version_num_gt v0 hv0 hl0
  · intro hfw'
    exact Option.noConfusion (hfind.symm.trans hfw')

theorem EntryOK_of_fresh {s0 s4 s2 : Store} {tw : String} {e : CreatedEntry}
    (hfind : s0.words.find? (fun x => x.word = tw) = none)
    (hW : s4.words = s0.words ++ [⟨s0.nextWordId, tw⟩])
    (hV : s4.versions = s0.versions ++ [⟨s0.nextVersionId, s0.nextWordId, 1⟩])
    (hLE : LoopExt s4 s2)
    (he1 : e.child_lang_word_id = s0.nextWordId) (he2 : e.word = tw)
    (he3 : e.child_version_id = s0.nextVersionId) :
    EntryOK s0 s2 e := by
  obtain ⟨nw2, hw2, _⟩ := hLE.words_ext
  obtain ⟨nv2, hv2, _⟩ := hLE.versions_ext
  unfold EntryOK
  rw [he1, he2, he3]
  refine ⟨le_refl _, ?_, ?_⟩
  · intro w' hfw'
    exact Option.noConfusion (hfind.symm.trans hfw')
  · intro _
    refine ⟨le_refl _, ⟨⟨s0.nextWordId, tw⟩, ?_, rfl, rfl⟩,
      ⟨⟨s0.nextVersionId, s0.nextWordId, 1⟩, ?_, rfl, rfl⟩⟩
    · rw [hw2, hW]
      exact List.mem_append_left _ (List.mem_append_right _ (by simp))
    · rw [hv2, hV]
      exact List.mem_append_left _ (List.mem_append_right _ (by simp))

theorem apply_themes_loop_spec (pvid : Nat) :
    ∀ (themes : List Json) (s0 : Store) (acc : List CreatedEntry) (s2 : Store)
      (out : List CreatedEntry),
      Store.applyBounds s0 →
      apply_themes_loop pvid s0 themes acc = .ok (s2, out) →
      ∃ ents ext,
        out = acc ++ ents
        ∧ extract_themes themes = .ok ext
        ∧ LoopExt s0 s2
        ∧ Store.applyBounds s2
        ∧ (∀ e ∈ ents, EntryOK s0 s2 e)
        ∧ List.Forall₂ (fun e p => e.word = p.1
            ∧ (Store.phrasesOf s2 e.child_version_id).map (fun c => c.word) = p.2)
          ents ext := by
  intro themes
  induction themes with
  | nil =>
    intro s0 acc s2 out hb h
    unfold apply_themes_loop at h
    simp at h
    obtain ⟨hs, hout⟩ := h
    subst hs
    subst hout
    exact ⟨[], [], by simp, rfl, LoopExt_refl _, hb, by simp, List.Forall₂.nil⟩
  | cons t rest ih =>
    intro s0 acc s2 out hb h
    by_cases hobj : t.isObj = true
    · cases hex : pyStrOrEmptyStrip (t.lookup "theme") with
      | error m =>
        exfalso
        unfold apply_themes_loop at h
        rw [if_pos hobj, hex] at h
        exact Except.noConfusion h
      | ok tw =>
        by_cases htw : tw = ""
        · have h' : apply_themes_loop pvid s0 rest acc = .ok (s2, out) := by
            unfold apply_themes_loop at h
            rw [if_pos hobj, hex] at h
            simp only [] at h
            rw [if_pos htw] at h
            exact h
          obtain ⟨ents, ext, hout, hext, hLE, hb2, hEOK, hF2⟩ := ih s0 acc s2 out hb h'
          refine ⟨ents, ext, hout, ?_, hLE, hb2, hEOK, hF2⟩
          unfold extract_themes
          rw [if_pos hobj, hex]
          simp only []
          rw [if_pos htw]
          exact hext
        · cases hfind : s0.words.find? (fun x => x.word = tw) with
          | some w =>
            obtain ⟨s4, rows, h4, hW, hV, hC, hMap, hVid, hT, hWr, hNW, hNV⟩ :=
              loop_cons_existing pvid t rest s0 acc s2 out tw w hobj hex htw hfind h
            have hwmem : w ∈ s0.words := List.mem_of_find?_eq_some hfind
            have hbw : w.id < s0.nextWordId := hb.1 w hwmem
            have hb4 : Store.applyBounds s4 :=
              @applyBounds_ext s0 s4 []
                [⟨s0.nextVersionId, w.id, next_version_num s0 w.id⟩] rows
                (by rw [hW, List.append_nil]) hV hC
                (by intro x hx; simp at hx)
                (by
                  intro v hv
                  simp at hv
                  subst hv
                  show s0.nextVersionId < s4.nextVersionId
                  rw [hNV]
                  omega)
                (by
                  intro v hv
                  simp at hv
                  subst hv
                  show w.id < s4.nextWordId
                  rw [hNW]
                  exact hbw)
                (by
                  intro c hcm
                  rw [hVid c hcm, hNV]
                  omega)
                hNW.ge (by rw [hNV]; omega) hb
            obtain ⟨ents', ext', hout, hext, hLE, hb2, hEOK, hF2⟩ :=
              ih s4 (acc ++ [⟨w.id, tw, s0.nextVersionId⟩]) s2 out hb4 h4
            have hstep : LoopExt s0 s4 :=
              @LoopExt_build s0 s4 []
                [⟨s0.nextVersionId, w.id, next_version_num s0 w.id⟩] rows
                (by rw [hW, List.append_nil]) hV hC
                (by intro x hx; simp at hx)
                (by
                  intro v hv
                  simp at hv
                  subst hv
                  exact le_refl _)
                (by intro c hcm; exact (hVid c hcm).ge)
                hNW.ge (by rw [hNV]; omega) hT hWr
                (by intro x hx; simp at hx)
            have hsub_v : ∀ v ∈ s0.versions, v ∈ s4.versions := by
              intro v hv
              rw [hV]
              exact List.mem_append_left _ hv
            have hsub_w : ∀ x ∈ s4.words, x ∈ s2.words := by
              obtain ⟨nw2, hw2, _⟩ := hLE.words_ext
              intro x hx
              rw [hw2]
              exact List.mem_append_left _ hx
            have hph : Store.phrasesOf s2 s0.nextVersionId = rows :=
              phrasesOf_step hC hVid hb.2.2.2 hLE (by rw [hNV]; omega)
            refine ⟨⟨w.id, tw, s0.nextVersionId⟩ :: ents',
              (tw, ((theme_orbit t).map (fun p => pyStrip (Json.pyStr p))).filter
                (fun ph => ¬ ph = "")) :: ext', ?_, ?_, ?_, hb2, ?_, ?_⟩
            · rw [hout, List.append_assoc]
              rfl
            · unfold extract_themes
              rw [if_pos hobj, hex]
              simp only []
              rw [if_neg htw, hext]
            · exact LoopExt_trans hstep hLE
            · intro e he
              rcases List.mem_cons.mp he with rfl | hmem
              · exact EntryOK_of_existing hfind hV hLE rfl rfl rfl
              · exact @EntryOK_mono s0 s4 s2 e [] (hEOK e hmem)
                  (by rw [hW, List.append_nil]) hsub_v hNW.ge (by rw [hNV]; omega)
                  (by intro x hx; simp at hx) hsub_w
            · refine List.Forall₂.cons ⟨rfl, ?_⟩ hF2
              show (Store.phrasesOf s2 s0.nextVersionId).map (fun c => c.word)
                = ((theme_orbit t).map (fun p => pyStrip (Json.pyStr p))).filter
                    (fun ph => ¬ ph = "")
              rw [hph]
              exact hMap
          | none =>
            obtain ⟨s4, rows, h4, hW, hV, hC, hMap, hVid, hT, hWr, hNW, hNV⟩ :=
              loop_cons_fresh pvid t rest s0 acc s2 out tw hobj hex htw hfind hb.2.2.1 h
            have hb4 : Store.applyBounds s4 :=
              @applyBounds_ext s0 s4 [⟨s0.nextWordId, tw⟩]
                [⟨s0.nextVersionId, s0.nextWordId, 1⟩] rows
                hW hV hC
                (by
                  intro x hx
                  simp at hx
                  subst hx
                  show s0.nextWordId < s4.nextWordId
                  rw [hNW]
                  omega)
                (by
                  intro v hv
                  simp at hv
                  subst hv
                  show s0.nextVersionId < s4.nextVersionId
                  rw [hNV]
                  omega)
                (by
                  intro v hv
                  simp at hv
                  subst hv
                  show s0.nextWordId < s4.nextWordId
                  rw [hNW]
                  omega)
                (by
                  intro c hcm
                  rw [hVid c hcm, hNV]
                  omega)
                (by rw [hNW]; omega) (by rw [hNV]; omega) hb
            obtain ⟨ents', ext', hout, hext, hLE, hb2, hEOK, hF2⟩ :=
              ih s4 (acc ++ [⟨s0.nextWordId, tw, s0.nextVersionId⟩]) s2 out hb4 h4
            have hstep : LoopExt s0 s4 :=
              @LoopExt_build s0 s4 [⟨s0.nextWordId, tw⟩]
                [⟨s0.nextVersionId, s0.nextWordId, 1⟩] rows
                hW hV hC
                (by
                  intro x hx
                  simp at hx
                  subst hx
                  exact le_refl _)
                (by
                  intro v hv
                  simp at hv
                  subst hv
                  exact le_refl _)
                (by intro c hcm; exact (hVid c hcm).ge)
                (by rw [hNW]; omega) (by rw [hNV]; omega) hT hWr
                (by
                  intro x hx
                  simp at hx
                  subst hx
                  exact ⟨⟨s0.nextVersionId, s0.nextWordId, 1⟩, by simp, rfl, rfl⟩)
            have hsub_v : ∀ v ∈ s0.versions, v ∈ s4.versions := by
              intro v hv
              rw [hV]
              exact List.mem_append_left _ hv
            have hsub_w : ∀ x ∈ s4.words, x ∈ s2.words := by
              obtain ⟨nw2, hw2, _⟩ := hLE.words_ext
              intro x hx
              rw [hw2]
              exact List.mem_append_left _ hx
            have hv1mem : (⟨s0.nextVersionId, s0.nextWordId, 1⟩ : VersionRow) ∈ s2.versions := by
              obtain ⟨nv2, hv2, _⟩ := hLE.versions_ext
              rw [hv2, hV]
              exact List.mem_append_left _ (List.mem_append_right _ (by simp))
            have hph : Store.phrasesOf s2 s0.nextVersionId = rows :=
              phrasesOf_step hC hVid hb.2.2.2 hLE (by rw [hNV]; omega)
            refine ⟨⟨s0.nextWordId, tw, s0.nextVersionId⟩ :: ents',
              (tw, ((theme_orbit t).map (fun p => pyStrip (Json.pyStr p))).filter
                (fun ph => ¬ ph = "")) :: ext', ?_, ?_, ?_, hb2, ?_, ?_⟩
            · rw [hout, List.append_assoc]
              rfl
            · unfold extract_themes
              rw [if_pos hobj, hex]
              simp only []
              rw [if_neg htw, hext]
            · exact LoopExt_trans hstep hLE
            · intro e he
              rcases List.mem_cons.mp he with rfl | hmem
              · exact EntryOK_of_fresh hfind hW hV hLE rfl rfl rfl
              · exact @EntryOK_mono s0 s4 s2 e [⟨s0.nextWordId, tw⟩] (hEOK e hmem)
                  hW hsub_v (by rw [hNW]; omega) (by rw [hNV]; omega)
                  (by
                    intro wr hwr
                    simp at hwr
                    subst hwr
                    exact ⟨le_refl _,
                      ⟨⟨s0.nextVersionId, s0.nextWordId, 1⟩, hv1mem, rfl, rfl⟩⟩)
                  hsub_w
            · refine List.Forall₂.cons ⟨rfl, ?_⟩ hF2
              show (Store.phrasesOf s2 s0.nextVersionId).map (fun c => c.word)
                = ((theme_orbit t).map (fun p => pyStrip (Json.pyStr p))).filter
                    (fun ph => ¬ ph = "")
              rw [hph]
              exact hMap
    · have h' : apply_themes_loop pvid s0 rest acc = .ok (s2, out) := by
        unfold apply_themes_loop at h
        rw [if_neg hobj] at h
        exact h
      obtain ⟨ents, ext, hout, hext, hLE, hb2, hEOK, hF2⟩ := ih s0 acc s2 out hb h'
      refine ⟨ents, ext, hout, ?_, hLE, hb2, hEOK, hF2⟩
      unfold extract_themes
      rw [if_neg hobj]
      exact hext

theorem apply_plan_assemble (s : Store) (wid : Nat) (pid : Nat)
    (thms : List Json) (s2 : Store) (created : List CreatedEntry) (s' : Store)
    (hb : Store.applyBounds s)
    (hpw : pid < s.nextWordId)
    (hloop : apply_themes_loop s.nextVersionId
        { s with
            versions := s.versions ++ [⟨s.nextVersionId, pid, next_version_num s pid⟩],
            nextVersionId := s.nextVersionId + 1 }
        thms [] = .ok (s2, created))
    (hs' : s' = { s2 with writings := s2.writings.filter (fun w => ¬ w.id = wid) }) :
    (∀ v ∈ s.versions, Store.phrasesOf s' v.id = Store.phrasesOf s v.id)
    ∧ (∀ e ∈ created, EntryOK s s' e)
    ∧ (∃ ext, extract_themes thms = .ok ext
        ∧ List.Forall₂ (fun e p => e.word = p.1
            ∧ (Store.phrasesOf s' e.child_version_id).map (fun c => c.word) = p.2)
          created ext) := by
  subst hs'
  have hb1 : Store.applyBounds { s with
      versions := s.versions ++ [⟨s.nextVersionId, pid, next_version_num s pid⟩],
      nextVersionId := s.nextVersionId + 1 } :=
    @applyBounds_ext s _ [] [⟨s.nextVersionId, pid, next_version_num s pid⟩] []
      (by simp) (by simp) (by simp)
      (by intro x hx; simp at hx)
      (by
        intro v hv
        simp at hv
        subst hv
        show s.nextVersionId < s.nextVersionId + 1
        omega)
      (by
        intro v hv
        simp at hv
        subst hv
        show pid < s.nextWordId
        exact hpw)
      (by intro c hc; simp at hc)
      (le_refl _) (by show s.nextVersionId ≤ s.nextVersionId + 1; omega) hb
  obtain ⟨ents, ext, hout, hext, hLE, hb2, hEOK, hF2⟩ :=
    apply_themes_loop_spec s.nextVersionId thms _ [] s2 created hb1 hloop
  simp at hout
  subst hout
  refine ⟨?_, ?_, ext, hext, ?_⟩
  · intro v hv
    have h1 : v.id < s.nextVersionId := hb.2.1 v hv
    exact phrasesOf_frame hLE (by show v.id < s.nextVersionId + 1; omega)
  · intro e he
    exact @EntryOK_mono s _ s2 e [] (hEOK e he)
      (by simp)
      (by
        intro v hv
        show v ∈ s.versions ++ [⟨s.nextVersionId, pid, next_version_num s pid⟩]
        exact List.mem_append_left _ hv)
      (le_refl _)
      (by show s.nextVersionId ≤ s.nextVersionId + 1; omega)
      (by intro x hx; simp at hx)
      (by
        obtain ⟨nw2, hw2, _⟩ := hLE.words_ext
        intro x hx
        rw [hw2]
        exact List.mem_append_left _ hx)
  · exact hF2

/-- C1: a successful `apply_create_lang_words` never mutates the phrase set
of any pre-existing version (of any concept, in particular of a concept a
theme name matches): every version row already present keeps exactly its
old `child_words`.  Each `created` entry satisfies `EntryOK`: its minted
child version id is fresh; a theme name matching an existing concept
(case-sensitively, via the loop's `SELECT id FROM lang_words WHERE word=?`)
reuses that concept and receives a version strictly greater than every
pre-existing version of it; a theme name with no existing concept is backed
by a newly created concept owning a version-1 row.  The proposed phrases
land only under the minted version: the `created` list corresponds
pairwise to the staged plan's usable themes, the phrases of each entry's
new version being exactly that theme's non-empty stripped
`orbiting_phrases`.  (`hfk` is foreign-key soundness of
`temporary_writings.parent_lang_word_id`, guaranteed by SQLite in any
reachable store.) -/
theorem apply_plan_preserves_history (s : Store) (wid : Nat) (s' : Store)
    (created : List CreatedEntry) (hb : Store.applyBounds s)
    (hfk : ∀ w ∈ s.writings, w.parent_lang_word_id < s.nextWordId)
    (happly : apply_create_lang_words s wid = (s', .applied created)) :
    (∀ v ∈ s.versions, Store.phrasesOf s' v.id = Store.phrasesOf s v.id)
    ∧ (∀ e ∈ created, EntryOK s s' e)
    ∧ (∃ thms ext, staged_themes s wid = some thms
        ∧ extract_themes thms = .ok ext
        ∧ List.Forall₂ (fun e p => e.word = p.1
            ∧ (Store.phrasesOf s' e.child_version_id).map (fun c => c.word) = p.2)
          created ext) := by
  unfold apply_create_lang_words at happly
  cases hfind : s.writings.find? (fun w => w.id = wid) with
  | none =>
    rw [hfind] at happly
    obtain ⟨h1, h2⟩ := Prod.mk.inj happly
    exact ApplyResp.noConfusion h2
  | some wr =>
    rw [hfind] at happly
    simp only [] at happly
    by_cases hkind : wr.prompt_type ≠ "create_lang_words"
    · rw [if_pos hkind] at happly
      obtain ⟨h1, h2⟩ := Prod.mk.inj happly
      exact ApplyResp.noConfusion h2
    · rw [if_neg hkind] at happly
      rw [create_next_version_eq] at happly
      simp only [] at happly
      have hkind' : wr.prompt_type = "create_lang_words" := not_not.mp hkind
      have hpw : wr.parent_lang_word_id < s.nextWordId :=
        hfk wr (List.mem_of_find?_eq_some hfind)
      cases hparse : wr.text.loadsOrEmptyObj with
      | none =>
        rw [hparse] at happly
        obtain ⟨h1, h2⟩ := Prod.mk.inj happly
        exact ApplyResp.noConfusion h2
      | some payload =>
        rw [hparse] at happly
        simp only [] at happly
        cases hget : payload.getAttrE "themes" with
        | error m =>
          rw [hget] at happly
          obtain ⟨h1, h2⟩ := Prod.mk.inj happly
          exact ApplyResp.noConfusion h2
        | ok themesOpt =>
          rw [hget] at happly
          simp only [] at happly
          cases themesOpt with
          | none =>
            simp only [] at happly
            split at happly
            · obtain ⟨h1, h2⟩ := Prod.mk.inj happly
              exact ApplyResp.noConfusion h2
            · rename_i s2 created2 heq
              obtain ⟨h1, h2⟩ := Prod.mk.inj happly
              have h3 : created2 = created := ApplyResp.applied.inj h2
              rw [h3] at heq
              obtain ⟨hfr, hEOK, ext, hext, hF2⟩ :=
                apply_plan_assemble s wid wr.parent_lang_word_id [] s2 created s'
                  hb hpw heq h1.symm
              exact ⟨hfr, hEOK, [], ext,
                by simp [staged_themes, hfind, hkind', hparse, hget], hext, hF2⟩
          | some j =>
            cases j with
            | null =>
              simp only [] at happly
              split at happly
              · obtain ⟨h1, h2⟩ := Prod.mk.inj happly
                exact ApplyResp.noConfusion h2
              · rename_i s2 created2 heq
                obtain ⟨h1, h2⟩ := Prod.mk.inj happly
                have h3 : created2 = created := ApplyResp.applied.inj h2
                rw [h3] at heq
                obtain ⟨hfr, hEOK, ext, hext, hF2⟩ :=
                  apply_plan_assemble s wid wr.parent_lang_word_id [] s2 created s'
                    hb hpw heq h1.symm
                exact ⟨hfr, hEOK, [], ext,
                  by simp [staged_themes, hfind, hkind', hparse, hget], hext, hF2⟩
            | bool b =>
              simp only [] at happly
              split at happly
              · obtain ⟨h1, h2⟩ := Prod.mk.inj happly
                exact ApplyResp.noConfusion h2
              · rename_i s2 created2 heq
                obtain ⟨h1, h2⟩ := Prod.mk.inj happly
                have h3 : created2 = created := ApplyResp.applied.inj h2
                rw [h3] at heq
                obtain ⟨hfr, hEOK, ext, hext, hF2⟩ :=
                  apply_plan_assemble s wid wr.parent_lang_word_id [] s2 created s'
                    hb hpw heq h1.symm
                exact ⟨hfr, hEOK, [], ext,
                  by simp [staged_themes, hfind, hkind', hparse, hget], hext, hF2⟩
            | num n =>
              simp only [] at happly
              split at happly
              · obtain ⟨h1, h2⟩ := Prod.mk.inj happly
                exact ApplyResp.noConfusion h2
              · rename_i s2 created2 heq
                obtain ⟨h1, h2⟩ := Prod.mk.inj happly
                have h3 : created2 = created := ApplyResp.applied.inj h2
                rw [h3] at heq
                obtain ⟨hfr, hEOK, ext, hext, hF2⟩ :=
                  apply_plan_assemble s wid wr.parent_lang_word_id [] s2 created s'
                    hb hpw heq h1.symm
                exact ⟨hfr, hEOK, [], ext,
                  by simp [staged_themes, hfind, hkind', hparse, hget], hext, hF2⟩
            | str st =>
              simp only [] at happly
              split at happly
              · obtain ⟨h1, h2⟩ := Prod.mk.inj happly
                exact ApplyResp.noConfusion h2
              · rename_i s2 created2 heq
                obtain ⟨h1, h2⟩ := Prod.mk.inj happly
                have h3 : created2 = created := ApplyResp.applied.inj h2
                rw [h3] at heq
                obtain ⟨hfr, hEOK, ext, hext, hF2⟩ :=
                  apply_plan_assemble s wid wr.parent_lang_word_id [] s2 created s'
                    hb hpw heq h1.symm
                exact ⟨hfr, hEOK, [], ext,
                  by simp [staged_themes, hfind, hkind', hparse, hget], hext, hF2⟩
            | arr xs =>
              simp only [] at happly
              split at happly
              · obtain ⟨h1, h2⟩ := Prod.mk.inj happly
                exact ApplyResp.noConfusion h2
              · rename_i s2 created2 heq
                obtain ⟨h1, h2⟩ := Prod.mk.inj happly
                have h3 : created2 = created := ApplyResp.applied.inj h2
                rw [h3] at heq
                obtain ⟨hfr, hEOK, ext, hext, hF2⟩ :=
                  apply_plan_assemble s wid wr.parent_lang_word_id xs s2 created s'
                    hb hpw heq h1.symm
                exact ⟨hfr, hEOK, xs, ext,
                  by simp [staged_themes, hfind, hkind', hparse, hget], hext, hF2⟩
            | obj kvs =>
              simp only [] at happly
              split at happly
              · obtain ⟨h1, h2⟩ := Prod.mk.inj happly
                exact ApplyResp.noConfusion h2
              · rename_i s2 created2 heq
                obtain ⟨h1, h2⟩ := Prod.mk.inj happly
                have h3 : created2 = created := ApplyResp.applied.inj h2
                rw [h3] at heq
                obtain ⟨hfr, hEOK, ext, hext, hF2⟩ :=
                  apply_plan_assemble s wid wr.parent_lang_word_id [] s2 created s'
                    hb hpw heq h1.symm
                exact ⟨hfr, hEOK, [], ext,
                  by simp [staged_themes, hfind, hkind', hparse, hget], hext, hF2⟩

theorem apply_plan_preserves_history_witness :
    Store.applyBounds exC1
    ∧ (∀ w ∈ exC1.writings, w.parent_lang_word_id < exC1.nextWordId)
    ∧ apply_create_lang_words exC1 1
        = (exC1_applied, .applied [⟨2, "battery storage", 4⟩])
    ∧ ((∀ v ∈ exC1.versions,
          Store.phrasesOf exC1_applied v.id = Store.phrasesOf exC1 v.id)
       ∧ (∀ e ∈ [(⟨2, "battery storage", 4⟩ : CreatedEntry)],
            EntryOK exC1 exC1_applied e)
       ∧ (∃ thms ext, staged_themes exC1 1 = some thms
           ∧ extract_themes thms = .ok ext
           ∧ List.Forall₂ (fun e p => e.word = p.1
               ∧ (Store.phrasesOf exC1_applied e.child_version_id).map
                   (fun c => c.word) = p.2)
             [(⟨2, "battery storage", 4⟩ : CreatedEntry)] ext)) :=
  ⟨by unfold Store.applyBounds; decide, by decide, rfl,
    apply_plan_preserves_history exC1 1 exC1_applied [⟨2, "battery storage", 4⟩]
      (by unfold Store.applyBounds; decide) (by decide) rfl⟩
